import Mathlib

set_option maxHeartbeats 1000000

/-!
Shallow embedding of the sorted-sibling index of `src/src/tree_data_sorted.c`
(red-black tree overlaid on a run of sibling data nodes), together with proofs
of the specified properties.

Modelling conventions:
* `struct lyd_node` sibling instances are modelled by `LydNode`: `id` models the
  node's address (pointer identity), `val` models the value the schema-supplied
  comparator orders by (for a leaf-list its scalar value, for a list its key
  sequence collapsed to one comparison key; the comparator dispatch of
  `rb_compare_leaflists` / `rb_compare_lists` is out of scope per the spec,
  which only requires a total preorder with possible ties between distinct
  instances).
* `struct rb_node` cells and their parent pointers are modelled by an inductive
  `RbTree` plus a zipper `RbPath`; a C node pointer corresponds to a position
  `(p : RbPath, t : RbTree)` with `plug p t` the whole tree.  Pointer rewiring done
  by the C rotations corresponds to local reconstruction plus `plug`.
-/

inductive Color where
  | red : Color
  | black : Color
deriving DecidableEq

/-- Model of `struct lyd_node` (a sibling instance): `id` is its address
(pointer identity), `val` the comparator key. -/
structure LydNode where
  id : Nat
  val : Int
deriving DecidableEq

/-- Model of `struct rb_node` cells reachable from a root: color, left child,
assigned data node (`dnode`), right child. -/
inductive RbTree where
  | nil : RbTree
  | node (c : Color) (l : RbTree) (d : LydNode) (r : RbTree) : RbTree
deriving DecidableEq

/-- The schema plugin `sort` callback reached through `rb_sort_clb`:
negative iff `n1 < n2`, zero iff equal, positive iff `n1 > n2`
(contract of `rb_compare_leaflists`/`rb_compare_lists`). -/
def rb_compare (n1 n2 : LydNode) : Int :=
  if n1.val < n2.val then -1 else if n2.val < n1.val then 1 else 0

/-- In-order traversal (the sorted order of the tree). -/
def inorder : RbTree → List LydNode
  | .nil => []
  | .node _ l d r => inorder l ++ d :: inorder r

def tsize : RbTree → Nat
  | .nil => 0
  | .node _ l _ r => tsize l + tsize r + 1

/-- `RBN_DNODE` of a node; dummy value on `nil` (the C never reads it there). -/
def rootD : RbTree → LydNode
  | .nil => ⟨0, 0⟩
  | .node _ _ d _ => d

def rootColor : RbTree → Color
  | .nil => Color.black
  | .node c _ _ _ => c

/-- `RBN_COLOR(n) == RB_RED` (a NULL child counts as black). -/
def isRed : RbTree → Bool
  | .node Color.red _ _ _ => true
  | _ => false

/-- `RBN_COLOR(n) = RB_BLACK` on a node (identity on `nil`). -/
def setBlack : RbTree → RbTree
  | .nil => .nil
  | .node _ l d r => .node Color.black l d r

/-- Zipper context: the chain of parent pointers from a position up to the
root.  `leftOf c d r up` means the current node is the left child of a node
with color `c`, data `d` and right child `r`, whose own context is `up`. -/
inductive RbPath where
  | root : RbPath
  | leftOf (c : Color) (d : LydNode) (r : RbTree) (up : RbPath) : RbPath
  | rightOf (c : Color) (d : LydNode) (l : RbTree) (up : RbPath) : RbPath
deriving DecidableEq

/-- Rebuild the whole tree from a context and the subtree in its hole. -/
def plug : RbPath → RbTree → RbTree
  | .root, t => t
  | .leftOf c d r up, t => plug up (.node c t d r)
  | .rightOf c d l up, t => plug up (.node c l d t)

def psize : RbPath → Nat
  | .root => 0
  | .leftOf _ _ _ up => psize up + 1
  | .rightOf _ _ _ up => psize up + 1

/-- `rb_rotate_left` acting on the subtree rooted at its argument; the parent
re-linking done by the C code is performed by `plug` at the call sites.
The fall-through case corresponds to a NULL right child, which the C code
never passes to this function. -/
def rb_rotate_left : RbTree → RbTree
  | .node c l d (.node c2 rl d2 rr) => .node c2 (.node c l d rl) d2 rr
  | t => t

/-- `rb_rotate_right`, conventions as in `rb_rotate_left`. -/
def rb_rotate_right : RbTree → RbTree
  | .node c (.node c2 ll d2 lr) d r => .node c2 ll d2 (.node c lr d r)
  | t => t

/-- `rb_insert_color`: the bottom-up red-black insertion fix-up loop.  The
state is the current node `t` (always the subtree rooted at the C `rbn`)
together with its parent context.  Loop exits perform the trailing
`RBN_COLOR(*rbt) = RB_BLACK`.  In the two cases where the parent is a red
root the C code would dereference a NULL grandparent (unreachable when the
root of the initial tree is black); the model exits and blackens the root. -/
def rb_insert_color : RbPath → RbTree → RbTree
  | RbPath.root, t => setBlack t
  | RbPath.leftOf pc pd pr pp, t =>
    match pc with
    | Color.black => setBlack (plug pp (RbTree.node Color.black t pd pr))
    | Color.red =>
      match pp with
      | RbPath.root => setBlack (RbTree.node Color.red t pd pr)
      | RbPath.leftOf _ gd gu gp =>
        match gu with
        | RbTree.node Color.red ul ud ur =>
          rb_insert_color gp
            (RbTree.node Color.red (RbTree.node Color.black t pd pr) gd
              (RbTree.node Color.black ul ud ur))
        | gu =>
          setBlack (plug gp
            (rb_rotate_right (RbTree.node Color.red (RbTree.node Color.black t pd pr) gd gu)))
      | RbPath.rightOf _ gd gl gp =>
        match gl with
        | RbTree.node Color.red ul ud ur =>
          rb_insert_color gp
            (RbTree.node Color.red (RbTree.node Color.black ul ud ur) gd
              (RbTree.node Color.black t pd pr))
        | gl =>
          setBlack (plug gp
            (rb_rotate_left (RbTree.node Color.red gl gd
              (setBlack (rb_rotate_right (RbTree.node Color.red t pd pr))))))
  | RbPath.rightOf pc pd pl pp, t =>
    match pc with
    | Color.black => setBlack (plug pp (RbTree.node Color.black pl pd t))
    | Color.red =>
      match pp with
      | RbPath.root => setBlack (RbTree.node Color.red pl pd t)
      | RbPath.leftOf _ gd gu gp =>
        match gu with
        | RbTree.node Color.red ul ud ur =>
          rb_insert_color gp
            (RbTree.node Color.red (RbTree.node Color.black pl pd t) gd
              (RbTree.node Color.black ul ud ur))
        | gu =>
          setBlack (plug gp
            (rb_rotate_right (RbTree.node Color.red
              (setBlack (rb_rotate_left (RbTree.node Color.red pl pd t))) gd gu)))
      | RbPath.rightOf _ gd gl gp =>
        match gl with
        | RbTree.node Color.red ul ud ur =>
          rb_insert_color gp
            (RbTree.node Color.red (RbTree.node Color.black ul ud ur) gd
              (RbTree.node Color.black pl pd t))
        | gl =>
          setBlack (plug gp
            (rb_rotate_left (RbTree.node Color.red gl gd (RbTree.node Color.black pl pd t))))

/-- The binary-search descent of `rb_insert_node`: `comp > 0` goes left,
otherwise (ties included) right; returns the context of the empty position
where the new node is attached. -/
def rb_descend : RbTree → LydNode → RbPath → RbPath
  | .nil, _, p => p
  | .node c l d r, x, p =>
    if rb_compare d x > 0 then rb_descend l x (.leftOf c d r p)
    else rb_descend r x (.rightOf c d l p)

/-- `rb_insert_node`: attach a fresh red node (`rb_set`) at the position found
by the comparator descent, then rebalance with `rb_insert_color`. -/
def rb_insert_node (rbt : RbTree) (x : LydNode) : RbTree :=
  rb_insert_color (rb_descend rbt x RbPath.root) (RbTree.node Color.red RbTree.nil x RbTree.nil)

example :
    inorder (rb_insert_node (rb_insert_node (rb_insert_node
      (RbTree.node Color.black RbTree.nil ⟨1, 5⟩ RbTree.nil) ⟨2, 3⟩) ⟨3, 8⟩) ⟨4, 1⟩) =
    [⟨4, 1⟩, ⟨2, 3⟩, ⟨1, 5⟩, ⟨3, 8⟩] := by decide

/-- Descend to the rightmost node of a nonempty subtree, extending the
context (the inner loop of `rb_prev` when a left child exists). -/
def rb_rightmost (p : RbPath) : RbTree → RbPath × RbTree
  | RbTree.nil => (p, RbTree.nil)
  | RbTree.node c l d RbTree.nil => (p, RbTree.node c l d RbTree.nil)
  | RbTree.node c l d (RbTree.node rc rl rd rr) =>
    rb_rightmost (RbPath.rightOf c d l p) (RbTree.node rc rl rd rr)

/-- Descend to the leftmost node of a nonempty subtree (inner loop of
`rb_next`). -/
def rb_leftmost (p : RbPath) : RbTree → RbPath × RbTree
  | RbTree.nil => (p, RbTree.nil)
  | RbTree.node c RbTree.nil d r => (p, RbTree.node c RbTree.nil d r)
  | RbTree.node c (RbTree.node lc ll ld lr) d r =>
    rb_leftmost (RbPath.leftOf c d r p) (RbTree.node lc ll ld lr)

/-- The parent-climbing part of `rb_prev`: climb while the current node is a
left child, then step to the parent (`none` when the climb reaches the root:
the C function returns NULL). -/
def rb_up_while_left : RbPath → RbTree → Option (RbPath × RbTree)
  | RbPath.root, _ => none
  | RbPath.leftOf c d r up, t => rb_up_while_left up (RbTree.node c t d r)
  | RbPath.rightOf c d l up, t => some (up, RbTree.node c l d t)

/-- The parent-climbing part of `rb_next`. -/
def rb_up_while_right : RbPath → RbTree → Option (RbPath × RbTree)
  | RbPath.root, _ => none
  | RbPath.rightOf c d l up, t => rb_up_while_right up (RbTree.node c l d t)
  | RbPath.leftOf c d r up, t => some (up, RbTree.node c t d r)

/-- `rb_prev` on a position: the in-order predecessor's position. -/
def rb_prev_pos : RbPath → RbTree → Option (RbPath × RbTree)
  | p, RbTree.node c (RbTree.node lc ll ld lr) d r =>
    some (rb_rightmost (RbPath.leftOf c d r p) (RbTree.node lc ll ld lr))
  | p, RbTree.node c RbTree.nil d r => rb_up_while_left p (RbTree.node c RbTree.nil d r)
  | _, RbTree.nil => none

/-- `rb_next` on a position: the in-order successor's position. -/
def rb_next_pos : RbPath → RbTree → Option (RbPath × RbTree)
  | p, RbTree.node c l d (RbTree.node rc rl rd rr) =>
    some (rb_leftmost (RbPath.rightOf c d l p) (RbTree.node rc rl rd rr))
  | p, RbTree.node c l d RbTree.nil => rb_up_while_right p (RbTree.node c l d RbTree.nil)
  | _, RbTree.nil => none

/-- Concatenate contexts: `pathApp q p` replaces the `root` end of `q` by `p`
(`q`'s layers are the innermost ones). -/
def pathApp : RbPath → RbPath → RbPath
  | RbPath.root, p => p
  | RbPath.leftOf c d r up, p => RbPath.leftOf c d r (pathApp up p)
  | RbPath.rightOf c d l up, p => RbPath.rightOf c d l (pathApp up p)

/-- The successor-splice part of `rb_remove` (two-child case): walk to the
leftmost node of the right subtree, detach it, and report its data, its
color, its right child, and the context of the detached position relative to
the subtree's root.  The `nil` case is unreachable (the C walks a nonempty
subtree). -/
def rb_splice_min : RbTree → LydNode × Color × RbTree × RbPath
  | RbTree.nil => (⟨0, 0⟩, Color.black, RbTree.nil, RbPath.root)
  | RbTree.node c RbTree.nil d r => (d, c, r, RbPath.root)
  | RbTree.node c (RbTree.node lc ll ld lr) d r =>
    let m := rb_splice_min (RbTree.node lc ll ld lr)
    (m.1, m.2.1, m.2.2.1, pathApp m.2.2.2 (RbPath.leftOf c d r RbPath.root))

mutual

/-- `rb_remove_color`: the bottom-up deletion fix-up loop.  The state is the
possibly-`nil` subtree `t` at the C `rbn` together with its context `p` (the
`parent` argument is the innermost layer of `p`).  Loop exits blacken the
current node (`if (rbn != NULL) RBN_COLOR(rbn) = RB_BLACK`).  A red sibling
is first rotated away (`rb_set_blackred` + rotation), after which the same
iteration continues with the new sibling, handled by `rb_rc_left`/
`rb_rc_right`. -/
def rb_remove_color (p : RbPath) (t : RbTree) : RbTree :=
  match p with
  | RbPath.root => setBlack t
  | RbPath.leftOf pc pd sib pp =>
    if isRed t then plug (RbPath.leftOf pc pd sib pp) (setBlack t)
    else
      match sib with
      | RbTree.node Color.red sl sd sr =>
        rb_rc_left Color.red pd sl (RbPath.leftOf Color.black sd sr pp) t
      | sib => rb_rc_left pc pd sib pp t
  | RbPath.rightOf pc pd sib pp =>
    if isRed t then plug (RbPath.rightOf pc pd sib pp) (setBlack t)
    else
      match sib with
      | RbTree.node Color.red sl sd sr =>
        rb_rc_right Color.red pd sr (RbPath.rightOf Color.black sd sl pp) t
      | sib => rb_rc_right pc pd sib pp t
termination_by 2 * psize p + (if isRed t then 0 else 2)
decreasing_by all_goals simp_all [psize] <;> split <;> omega

/-- One iteration body of `rb_remove_color` for a deficient left child with
black (or NULL) sibling `sib`.  The `nil`-sibling branches mark places where
the C code would dereference NULL (unreachable under the red-black
invariant); the model leaves the tree unchanged there. -/
def rb_rc_left (pc : Color) (pd : LydNode) (sib : RbTree) (pp : RbPath) (t : RbTree) : RbTree :=
  match sib with
  | RbTree.nil => plug (RbPath.leftOf pc pd RbTree.nil pp) t
  | RbTree.node sc sl sd sr =>
    if !isRed sl && !isRed sr then
      rb_remove_color pp (RbTree.node pc t pd (RbTree.node Color.red sl sd sr))
    else
      match (if !isRed sr then rb_rotate_right (RbTree.node Color.red (setBlack sl) sd sr)
             else RbTree.node sc sl sd sr) with
      | RbTree.node _ l2 d2 r2 =>
        setBlack (plug pp (rb_rotate_left (RbTree.node Color.black t pd
          (RbTree.node pc l2 d2 (setBlack r2)))))
      | RbTree.nil => plug (RbPath.leftOf pc pd RbTree.nil pp) t
termination_by 2 * psize pp + (if pc = Color.red then 1 else 3)
decreasing_by all_goals simp_all [psize, isRed] <;> split <;> split <;> simp_all [isRed] <;> omega

/-- One iteration body of `rb_remove_color` for a deficient right child. -/
def rb_rc_right (pc : Color) (pd : LydNode) (sib : RbTree) (pp : RbPath) (t : RbTree) : RbTree :=
  match sib with
  | RbTree.nil => plug (RbPath.rightOf pc pd RbTree.nil pp) t
  | RbTree.node sc sl sd sr =>
    if !isRed sl && !isRed sr then
      rb_remove_color pp (RbTree.node pc (RbTree.node Color.red sl sd sr) pd t)
    else
      match (if !isRed sl then rb_rotate_left (RbTree.node Color.red sl sd (setBlack sr))
             else RbTree.node sc sl sd sr) with
      | RbTree.node _ l2 d2 r2 =>
        setBlack (plug pp (rb_rotate_right (RbTree.node Color.black
          (RbTree.node pc (setBlack l2) d2 r2) pd t)))
      | RbTree.nil => plug (RbPath.rightOf pc pd RbTree.nil pp) t
termination_by 2 * psize pp + (if pc = Color.red then 1 else 3)
decreasing_by all_goals simp_all [psize, isRed] <;> split <;> split <;> simp_all [isRed] <;> omega

end

/-- `rb_remove`, acting at the position of the node to remove.  With at most
one child the node is spliced out directly; with two children the in-order
successor is spliced out of the right subtree and takes the removed node's
place, keeping its color (`RBN_COPY`).  When the spliced-out node was black,
`rb_remove_color` runs at the splice position. -/
def rb_remove_at (p : RbPath) (u : RbTree) : RbTree :=
  match u with
  | RbTree.nil => plug p RbTree.nil
  | RbTree.node c RbTree.nil _d r =>
    if c = Color.black then rb_remove_color p r else plug p r
  | RbTree.node c (RbTree.node lc ll ld lr) _d RbTree.nil =>
    if c = Color.black then rb_remove_color p (RbTree.node lc ll ld lr)
    else plug p (RbTree.node lc ll ld lr)
  | RbTree.node c (RbTree.node lc ll ld lr) _d (RbTree.node rc rl rd rr) =>
    let m := rb_splice_min (RbTree.node rc rl rd rr)
    let ctx := pathApp m.2.2.2 (RbPath.rightOf c m.1 (RbTree.node lc ll ld lr) p)
    if m.2.1 = Color.black then rb_remove_color ctx m.2.2.1 else plug ctx m.2.2.1

/-- One predecessor-scan of `rb_find` over the comparator-equal run left of
the pivot.  `fuel` bounds the number of pointer steps; `rb_find` passes the
tree size, which always suffices (each step moves one position left in the
in-order list). -/
def rb_find_scan_prev (target : LydNode) : Nat → RbPath → RbTree → Option (RbPath × RbTree)
  | 0, _, _ => none
  | fuel + 1, p, u =>
    match rb_prev_pos p u with
    | none => none
    | some (q, v) =>
      if rb_compare (rootD v) target ≠ 0 then none
      else if (rootD v).id = target.id then some (q, v)
      else rb_find_scan_prev target fuel q v

/-- The successor-scan of `rb_find`. -/
def rb_find_scan_next (target : LydNode) : Nat → RbPath → RbTree → Option (RbPath × RbTree)
  | 0, _, _ => none
  | fuel + 1, p, u =>
    match rb_next_pos p u with
    | none => none
    | some (q, v) =>
      if rb_compare (rootD v) target ≠ 0 then none
      else if (rootD v).id = target.id then some (q, v)
      else rb_find_scan_next target fuel q v

/-- The comparator descent of `rb_find`; at a comparator-equal node that is
not the target itself, scan predecessors then successors of the pivot. -/
def rb_find_go : RbTree → LydNode → RbPath → Option (RbPath × RbTree)
  | RbTree.nil, _, _ => none
  | RbTree.node c l d r, target, p =>
    if rb_compare d target > 0 then rb_find_go l target (RbPath.leftOf c d r p)
    else if rb_compare d target < 0 then rb_find_go r target (RbPath.rightOf c d l p)
    else if d.id = target.id then some (p, RbTree.node c l d r)
    else
      match rb_find_scan_prev target (tsize (plug p (RbTree.node c l d r))) p
          (RbTree.node c l d r) with
      | some res => some res
      | none => rb_find_scan_next target (tsize (plug p (RbTree.node c l d r))) p
          (RbTree.node c l d r)

/-- `rb_find`: position of the node whose `dnode` is pointer-identical to
`target` (identity modelled by `id`; the root is identity-checked first). -/
def rb_find (rbt : RbTree) (target : LydNode) : Option (RbPath × RbTree) :=
  match rbt with
  | RbTree.nil => none
  | rbt =>
    if (rootD rbt).id = target.id then some (RbPath.root, rbt)
    else rb_find_go rbt target RbPath.root

/-- `rb_remove_node` restricted to the tree: find `x`'s cell by identity and
remove it.  An empty tree is left untouched (C: early return); a failed find
trips an `assert` in the C code, and the model leaves the tree unchanged in
that (unreachable) case. -/
def rb_remove_node (rbt : RbTree) (x : LydNode) : RbTree :=
  match rb_find rbt x with
  | some (p, u) => rb_remove_at p u
  | none => rbt

/-- `rb_iter_traversal`: dive left-first to a node with no children, detach it
from its parent (the context layer collapses to a `nil` child) and return it
with the next iterator state (`none` once the root has been consumed). -/
def rb_iter_traversal : RbPath → RbTree → Option (LydNode × Option (RbPath × RbTree))
  | _, RbTree.nil => none
  | p, RbTree.node c (RbTree.node lc ll ld lr) d r =>
    rb_iter_traversal (RbPath.leftOf c d r p) (RbTree.node lc ll ld lr)
  | p, RbTree.node c RbTree.nil d (RbTree.node rc rl rd rr) =>
    rb_iter_traversal (RbPath.rightOf c d RbTree.nil p) (RbTree.node rc rl rd rr)
  | p, RbTree.node _ RbTree.nil d RbTree.nil =>
    some (d, match p with
      | RbPath.root => none
      | RbPath.leftOf c pd r up => some (up, RbTree.node c RbTree.nil pd r)
      | RbPath.rightOf c pd l up => some (up, RbTree.node c l pd RbTree.nil))

/-- The loop of `lyds_free_tree`, collecting the visited (freed) nodes.
`fuel` bounds the iteration count; `lyds_free_tree` passes `tsize rbt + 1`,
which always suffices since every step frees one node. -/
def lyds_free_tree_go : Nat → Option (RbPath × RbTree) → List LydNode
  | 0, _ => []
  | _, none => []
  | fuel + 1, some (p, t) =>
    match rb_iter_traversal p t with
    | none => []
    | some (d, st) => d :: lyds_free_tree_go fuel st

/-- `lyds_free_tree`: destructive traversal freeing every node; the result
lists the freed nodes in visiting order. -/
def lyds_free_tree (rbt : RbTree) : List LydNode :=
  lyds_free_tree_go (tsize rbt + 1) (some (RbPath.root, rbt))

def postorder : RbTree → List LydNode
  | .nil => []
  | .node _ l d r => postorder l ++ postorder r ++ [d]

example :
    lyds_free_tree (rb_insert_node (rb_insert_node
      (RbTree.node Color.black RbTree.nil ⟨1, 5⟩ RbTree.nil) ⟨2, 3⟩) ⟨3, 8⟩) =
    [⟨2, 3⟩, ⟨3, 8⟩, ⟨1, 5⟩] := by decide


example :
    inorder (rb_remove_node (rb_insert_node (rb_insert_node (rb_insert_node
      (RbTree.node Color.black RbTree.nil ⟨1, 5⟩ RbTree.nil) ⟨2, 3⟩) ⟨3, 8⟩) ⟨4, 1⟩)
      ⟨2, 3⟩) = [⟨4, 1⟩, ⟨1, 5⟩, ⟨3, 8⟩] := by
  simp [rb_remove_node, rb_find, rb_find_go, rb_compare, rootD, tsize, plug, rb_remove_at,
    rb_splice_min, pathApp, rb_remove_color, rb_rc_left, rb_rc_right, isRed, setBlack, inorder,
    rb_insert_node, rb_descend, rb_insert_color, rb_prev_pos, rb_find_scan_prev,
    rb_find_scan_next, rb_up_while_left, rb_up_while_right, rb_rightmost, rb_leftmost,
    rb_rotate_left, rb_rotate_right]

example : (rb_find (rb_insert_node (rb_insert_node (rb_insert_node
      (RbTree.node Color.black RbTree.nil ⟨1, 5⟩ RbTree.nil) ⟨2, 5⟩) ⟨3, 5⟩) ⟨4, 1⟩)
      ⟨3, 5⟩).map (fun q => rootD q.2) = some ⟨3, 5⟩ := by decide

/-! ## Red-black validity checkers (the invariants of spec section 3) -/

/-- First invariant: the root is black (an empty tree passes). -/
def rootBlack (t : RbTree) : Bool := !isRed t

/-- Second invariant: no red node has a red child (equivalently, no red node
has a red parent). -/
def noRedRed : RbTree → Bool
  | .nil => true
  | .node c l _ r =>
    (if c = Color.red then !isRed l && !isRed r else true) && noRedRed l && noRedRed r

/-- Third invariant: every path from the root to an empty position passes the
same number of black nodes; `blackH` returns that common count, or `none`. -/
def blackH : RbTree → Option Nat
  | .nil => some 0
  | .node c l _ r =>
    match blackH l, blackH r with
    | some m, some n =>
      if m = n then some (m + (if c = Color.black then 1 else 0)) else none
    | _, _ => none

/-- The conjunction of the three red-black invariants. -/
def rbValid (t : RbTree) : Prop :=
  rootBlack t = true ∧ noRedRed t = true ∧ (blackH t).isSome = true

/-! ## The run-level (`lyds_`) layer -/

instance : Inhabited LydNode := ⟨⟨0, 0⟩⟩

/-- Observable state of one (leaf-)list run: the sibling linked list in order
(its head is the leader, the node the caller's `leader` pointer designates),
the address of the node carrying the `lyds_tree` metadata (the Anchor
Record), if any, and the red-black tree root stored in that metadata.
`lyds_get_rb_tree leader` succeeds exactly when `anchorAt` is the leader's
address. -/
structure RunState where
  list : List LydNode
  anchorAt : Option Nat
  rbt : RbTree
deriving DecidableEq

inductive LYERR where
  | EMEM : LYERR
  | EINT : LYERR
deriving DecidableEq

/-- Outcome of a fallible internal step. -/
inductive LYRes (α : Type) where
  | ok (a : α) : LYRes α
  | err (e : LYERR) : LYRes α
  | crash : LYRes α
deriving DecidableEq

/-- Outcome of `lyds_insert`: a `LY_ERR` return together with the observable
run state at the return point; `crash` marks executions where the C code
dereferences NULL (undefined behavior), which have no final state. -/
inductive RunRes where
  | ok (s : RunState) : RunRes
  | err (e : LYERR) (s : RunState) : RunRes
  | crash : RunRes
deriving DecidableEq

/-- Environment of an execution: which allocations succeed (the `n`-th
allocation of the call succeeds iff `allocOk n`) and whether the `yang`
module is present in the context. -/
structure AllocEnv where
  allocOk : Nat → Bool
  yangPresent : Bool

/-- The environment in which every allocation succeeds and the `yang` module
is installed. -/
def allocEnv0 : AllocEnv := ⟨fun _ => true, true⟩

/-- `lyds_create_node`: `calloc` a red-black cell for `x` (zeroed: black, no
children) or fail with `LY_EMEM`. -/
def lyds_create_node (env : AllocEnv) (cnt : Nat) (x : LydNode) : Nat × Option RbTree :=
  (cnt + 1,
   if env.allocOk cnt then some (RbTree.node Color.black RbTree.nil x RbTree.nil) else none)

/-- The per-sibling loop of `lyds_additionally_create_rb_tree`: create a cell
for each remaining run member and `rb_insert_node` it. -/
def lyds_build_loop (env : AllocEnv) : Nat → List LydNode → RbTree → Nat × LYRes RbTree
  | cnt, [], rbt => (cnt, LYRes.ok rbt)
  | cnt, x :: rest, rbt =>
    match lyds_create_node env cnt x with
    | (cnt2, none) => (cnt2, LYRes.err LYERR.EMEM)
    | (cnt2, some _) => lyds_build_loop env cnt2 rest (rb_insert_node rbt x)

/-- `lyds_additionally_create_rb_tree`: lazily build the tree from the whole
run in linked-list order, the leader first (its cell keeps the `calloc`
black color), then store the root into the metadata (`RBT_SET`).  `hasMeta`
records whether `root_meta` is a valid pointer; the C `RBT_SET` dereferences
it, so a missing metadata yields `crash`. -/
def lyds_additionally_create_rb_tree (env : AllocEnv) (cnt : Nat) (hasMeta : Bool)
    (leader : LydNode) (rest : List LydNode) : Nat × LYRes RbTree :=
  match lyds_create_node env cnt leader with
  | (cnt2, none) => (cnt2, LYRes.err LYERR.EMEM)
  | (cnt2, some rbn) =>
    match lyds_build_loop env cnt2 rest rbn with
    | (cnt3, LYRes.ok rbt) => (cnt3, if hasMeta then LYRes.ok rbt else LYRes.crash)
    | (cnt3, LYRes.err e) => (cnt3, LYRes.err e)
    | (cnt3, LYRes.crash) => (cnt3, LYRes.crash)

/-- `lyds_create_metadata`: ensure the `lyds_tree` metadata exists on the
node with address `leaderId`.  If it is already there, succeed; otherwise the
`yang` module must be installed (`LY_EINT` if not), and the metadata is
created with a NULL tree (`lyd_create_meta` allocation may fail with
`LY_EMEM`). -/
def lyds_create_metadata (env : AllocEnv) (cnt : Nat) (s : RunState) (leaderId : Nat) :
    Nat × LYRes RunState :=
  if s.anchorAt = some leaderId then (cnt, LYRes.ok s)
  else if env.yangPresent = false then (cnt, LYRes.err LYERR.EINT)
  else
    (cnt + 1,
     if env.allocOk cnt then LYRes.ok { s with anchorAt := some leaderId, rbt := RbTree.nil }
     else LYRes.err LYERR.EMEM)

/-- Recover the position of the cell whose `dnode` has address `k` (stands
for the `rbn` pointer which the C code holds directly). -/
def findPosById : RbPath → RbTree → Nat → Option (RbPath × RbTree)
  | _, RbTree.nil, _ => none
  | p, RbTree.node c l d r, k =>
    if d.id = k then some (p, RbTree.node c l d r)
    else
      match findPosById (RbPath.leftOf c d r p) l k with
      | some res => some res
      | none => findPosById (RbPath.rightOf c d l p) r k

/-- `lyd_insert_after_node(prev, x)` on the run's linked list, `prev` given by
address: splice `x` right after the node with address `pid`. -/
def insertAfterId (pid : Nat) (x : LydNode) : List LydNode → List LydNode
  | [] => []
  | y :: ys => if y.id = pid then y :: x :: ys else y :: insertAfterId pid x ys

/-- `lyds_link_data_node`: splice the freshly inserted `x` into the sibling
list right after its tree predecessor (`rb_prev`); with no predecessor, `x`
becomes the new leader: it is spliced in front (`lyd_insert_before_node`),
the caller's leader pointer is updated (the new list head), and the Anchor
Record moves to `x` (`lyds_move_meta`).  The C function receives `x`'s `rbn`
pointer; the model recovers its position by address. -/
def lyds_link_data_node (list : List LydNode) (x : LydNode) (t2 : RbTree)
    (anchor : Option Nat) : List LydNode × Option Nat :=
  match findPosById RbPath.root t2 x.id with
  | none => (list, anchor)
  | some (p, u) =>
    match rb_prev_pos p u with
    | some (_, v) => (insertAfterId (rootD v).id x list, anchor)
    | none => (x :: list, some x.id)

/-- `lyds_insert`: the public sorted-insertion entry point.  The caller's
`leader` pointer designates the head of `s.list`; `x` is the standalone new
node (modelled without stale metadata of its own, which the C would first
discard).  Note that, as in the C source, the return value of
`lyds_create_metadata` is discarded; if it failed, the later `RBT_SET`
dereferences the NULL `root_meta` and the execution crashes.  A successful
lazy build ends in `RBT_SET(root_meta, *rbt)` (`tree_data_sorted.c:950`),
persisting the freshly built tree into the Anchor Record *before* the
fallible allocation of `x`'s own cell inside `rb_insert`: the state carried
by that allocation's `LY_EMEM` return therefore holds the built tree. -/
def lyds_insert (env : AllocEnv) (cnt : Nat) (s : RunState) (x : LydNode) : Nat × RunRes :=
  let leaderId := (s.list.headI).id
  let hasMeta0 := s.anchorAt = some leaderId
  let rbt0 := if hasMeta0 then s.rbt else RbTree.nil
  let step1 : Nat × RunState × Bool :=
    if hasMeta0 then (cnt, s, true)
    else
      match lyds_create_metadata env cnt s leaderId with
      | (cnt2, LYRes.ok s2) => (cnt2, s2, true)
      | (cnt2, _) => (cnt2, s, false)
  match step1 with
  | (cnt1, s1, hasMeta) =>
    match (if rbt0 = RbTree.nil then
             lyds_additionally_create_rb_tree env cnt1 hasMeta s.list.headI s.list.tail
           else (cnt1, LYRes.ok rbt0)) with
    | (cnt2, LYRes.err e) => (cnt2, RunRes.err e s1)
    | (cnt2, LYRes.crash) => (cnt2, RunRes.crash)
    | (cnt2, LYRes.ok rbt1) =>
      match lyds_create_node env cnt2 x with
      | (cnt3, none) => (cnt3, RunRes.err LYERR.EMEM { s1 with rbt := rbt1 })
      | (cnt3, some _) =>
        let t2 := rb_insert_node rbt1 x
        match lyds_link_data_node s1.list x t2 s1.anchorAt with
        | (list2, anchor2) =>
          if hasMeta then (cnt3, RunRes.ok { list := list2, anchorAt := anchor2, rbt := t2 })
          else (cnt3, RunRes.crash)

/-- The pure build of `lyds_additionally_create_rb_tree` (all allocations
succeeding). -/
def lyds_build (leader : LydNode) (rest : List LydNode) : RbTree :=
  rest.foldl rb_insert_node (RbTree.node Color.black RbTree.nil leader RbTree.nil)

/-- `lyds_insert` under `allocEnv0` (every allocation succeeds, `yang`
present): the pure state transformer. -/
def lyds_insert_p (s : RunState) (x : LydNode) : RunState :=
  let leaderId := (s.list.headI).id
  let hasMeta0 := s.anchorAt = some leaderId
  let s1 := if hasMeta0 then s else { s with anchorAt := some leaderId, rbt := RbTree.nil }
  let rbt0 := if hasMeta0 then s.rbt else RbTree.nil
  let rbt1 := if rbt0 = RbTree.nil then lyds_build s.list.headI s.list.tail else rbt0
  let t2 := rb_insert_node rbt1 x
  match lyds_link_data_node s1.list x t2 s1.anchorAt with
  | (list2, anchor2) => { list := list2, anchorAt := anchor2, rbt := t2 }

/-- A sequence of `lyds_insert` calls growing a run from its first member
`leader` (each insertion happening under `allocEnv0`). -/
def lyds_insert_seq (leader : LydNode) (xs : List LydNode) : RunState :=
  xs.foldl lyds_insert_p { list := [leader], anchorAt := none, rbt := RbTree.nil }

/-- `lyds_move_meta`: unlink the `lyds_tree` metadata and attach it to the
node with address `dstId`. -/
def lyds_move_meta (s : RunState) (dstId : Nat) : RunState := { s with anchorAt := some dstId }

/-- `lyds_unlink` after its NULL guards: `leader` is the node the caller's
leader pointer designates and `x` the node being removed.  No-op when the
leader carries no `lyds_tree` metadata or when the run has exactly one
member (`LYD_NODE_IS_ALONE`; that macro is not among the provided sources
and is modelled from the spec as the run having exactly one member).  If
`x` is the leader, the Anchor Record first moves to the next sibling; then
`x`'s cell is removed from the tree (`rb_remove_node` + `RBT_SET`) and
freed. -/
def lyds_unlink_core (s : RunState) (leader x : LydNode) : RunState :=
  if s.anchorAt ≠ some leader.id ∨ s.list.length = 1 then s
  else
    let s1 := if leader.id = x.id then lyds_move_meta s (s.list.tail.headI).id else s
    { s1 with rbt := rb_remove_node s1.rbt x }

/-- `lyds_unlink` including its NULL-argument guards: `leaderp` models the
`struct lyd_node **leader` argument (`none` is a NULL pointer, `some none` a
pointer to NULL), `nodep` the `node` argument. -/
def lyds_unlink (s : RunState) (leaderp : Option (Option LydNode)) (nodep : Option LydNode) :
    RunState :=
  match nodep, leaderp with
  | none, _ => s
  | some _, none => s
  | some _, some none => s
  | some x, some (some leader) => lyds_unlink_core s leader x

/-! ## Schema layer (`lyds_is_supported`) -/

inductive NodeType where
  | leaf : NodeType
  | leaflist : NodeType
  | list : NodeType
  | other : NodeType
deriving DecidableEq

/-- Compiled schema node: its `nodetype` and the `LYS_ORDBY_SYSTEM` and
`LYS_KEYLESS` flag bits (the schema compiler sets `LYS_KEYLESS` exactly on
lists without declared keys; spec section 6). -/
structure LysNode where
  nodetype : NodeType
  ordby_system : Bool
  keyless : Bool
deriving DecidableEq

/-- A data node as seen by `lyds_is_supported`; opaque nodes have no
schema. -/
structure LydDataNode where
  schema : Option LysNode
deriving DecidableEq

/-- `lyds_is_supported`. -/
def lyds_is_supported (node : LydDataNode) : Bool :=
  match node.schema with
  | none => false
  | some sc =>
    if sc.ordby_system = false then false
    else if sc.nodetype = NodeType.leaflist then true
    else if sc.nodetype = NodeType.list ∧ sc.keyless = false then true
    else false

/-! ## Order notions used in the statements -/

/-- Comparator order is non-decreasing along a list. -/
def SortedVals (l : List LydNode) : Prop := l.Pairwise (fun a b => a.val ≤ b.val)

/-- All node addresses in a list are distinct (models the fact that distinct
sibling instances are distinct allocations). -/
def IdsNodup (l : List LydNode) : Prop := (l.map LydNode.id).Nodup

instance : DecidablePred SortedVals := fun l => by unfold SortedVals; infer_instance

instance : DecidablePred IdsNodup := fun l => by unfold IdsNodup; infer_instance

/-- Proof helper for the teardown traversal: the nodes that remain to be
visited once the subtree in the hole of `p` has been fully consumed, in
visiting order. -/
def restOf : RbPath → List LydNode
  | .root => []
  | .leftOf c d r up => postorder r ++ d :: restOf up
  | .rightOf c d l up => postorder l ++ d :: restOf up

def leftT : RbTree → RbTree
  | .nil => .nil
  | .node _ l _ _ => l

def rightT : RbTree → RbTree
  | .nil => .nil
  | .node _ _ _ r => r

/-- In-order elements to the left of the hole of a context. -/
def beforeP : RbPath → List LydNode
  | .root => []
  | .leftOf _ _ _ up => beforeP up
  | .rightOf _ d l up => beforeP up ++ inorder l ++ [d]

/-- In-order elements to the right of the hole of a context. -/
def afterP : RbPath → List LydNode
  | .root => []
  | .leftOf _ d r up => d :: (inorder r ++ afterP up)
  | .rightOf _ _ _ up => afterP up

/-- The split of a tree's in-order list around the empty position that the
descent of `rb_insert_node` selects for `x` (ties descend to the right). -/
def insSpot (x : LydNode) : RbTree → List LydNode × List LydNode
  | .nil => ([], [])
  | .node _ l d r =>
    if rb_compare d x > 0 then ((insSpot x l).1, (insSpot x l).2 ++ d :: inorder r)
    else (inorder l ++ d :: (insSpot x r).1, (insSpot x r).2)

/-- Invariant of a run grown by `lyds_insert`: the linked list is exactly the
in-order list of the tree, its comparator order is non-decreasing, all
addresses are distinct, and the Anchor Record sits on the leader (the list
head). -/
def GoodState (s : RunState) : Prop :=
  s.list = inorder s.rbt ∧ SortedVals s.list ∧ IdsNodup s.list ∧
    s.list ≠ [] ∧ s.anchorAt = some (s.list.headI).id ∧ s.rbt ≠ RbTree.nil

/-- The classical red-black balance relation: `RBal t c n` says that `t`
is a valid red-black subtree, its root is colored `c` (`nil` counts black),
every red node has black children, and every path to an empty position
crosses `n` black nodes. -/
inductive RBal : RbTree → Color → Nat → Prop where
  | nil : RBal RbTree.nil Color.black 0
  | red {l r : RbTree} {d : LydNode} {n : Nat} :
      RBal l Color.black n → RBal r Color.black n →
      RBal (RbTree.node Color.red l d r) Color.red n
  | black {l r : RbTree} {d : LydNode} {c1 c2 : Color} {n : Nat} :
      RBal l c1 n → RBal r c2 n →
      RBal (RbTree.node Color.black l d r) Color.black (n + 1)

/-- Balance of a context: `CtxBal p pc n N` says every layer of `p` is
consistent with the red-black invariants, the node just above the hole is
colored `pc` (black for the root context), the hole expects black-height
`n`, and the whole tree closes at black-height `N`. -/
inductive CtxBal : RbPath → Color → Nat → Nat → Prop where
  | root {n : Nat} : CtxBal RbPath.root Color.black n n
  | leftB {up : RbPath} {pc cr : Color} {d : LydNode} {r : RbTree} {n N : Nat} :
      CtxBal up pc (n + 1) N → RBal r cr n →
      CtxBal (RbPath.leftOf Color.black d r up) Color.black n N
  | leftR {up : RbPath} {d : LydNode} {r : RbTree} {n N : Nat} :
      CtxBal up Color.black n N → RBal r Color.black n →
      CtxBal (RbPath.leftOf Color.red d r up) Color.red n N
  | rightB {up : RbPath} {pc cl : Color} {d : LydNode} {l : RbTree} {n N : Nat} :
      CtxBal up pc (n + 1) N → RBal l cl n →
      CtxBal (RbPath.rightOf Color.black d l up) Color.black n N
  | rightR {up : RbPath} {d : LydNode} {l : RbTree} {n N : Nat} :
      CtxBal up Color.black n N → RBal l Color.black n →
      CtxBal (RbPath.rightOf Color.red d l up) Color.red n N

/-- Color of the outermost context layer (the root of the plugged tree when
the context is not empty); black for the empty context. -/
def pathTopColor : RbPath → Color
  | .root => Color.black
  | .leftOf c _ _ .root => c
  | .rightOf c _ _ .root => c
  | .leftOf _ _ _ up => pathTopColor up
  | .rightOf _ _ _ up => pathTopColor up


/-- Precondition of the deletion fix-up at a position: the hole expects
black-height `m`, and the current subtree is either one black short of it
(a black or empty subtree of height `m - 1`), or red such that blackening
it closes the gap exactly. -/
def Hfit (t : RbTree) (m : Nat) : Prop :=
  (isRed t = false ∧ ∃ c n, RBal t c n ∧ m = n + 1) ∨
  (isRed t = true ∧ RBal (setBlack t) Color.black m)

/-! ## Theorems -/

/-- C9: for every node that has a schema, `lyds_is_supported` returns true if
and only if the schema is system-ordered and the node is a leaf-list or a
list that is not keyless (`LYS_KEYLESS` marks exactly the lists without
declared keys); in particular it returns false for user-ordered lists and
leaf-lists and for keyless lists. -/
theorem C9_is_supported_iff (node : LydDataNode) (sc : LysNode)
    (h : node.schema = some sc) :
    lyds_is_supported node = true ↔
      sc.ordby_system = true ∧
        (sc.nodetype = NodeType.leaflist ∨
          (sc.nodetype = NodeType.list ∧ sc.keyless = false)) := by
  rcases sc with ⟨nt, os, kl⟩
  cases nt <;> cases os <;> cases kl <;> simp [lyds_is_supported, h]

/-- Witness for C9 at a concrete input: a system-ordered keyed list is
supported. -/
theorem C9_is_supported_iff_witness :
    lyds_is_supported ⟨some ⟨NodeType.list, true, false⟩⟩ = true ↔
      (⟨NodeType.list, true, false⟩ : LysNode).ordby_system = true ∧
        ((⟨NodeType.list, true, false⟩ : LysNode).nodetype = NodeType.leaflist ∨
          ((⟨NodeType.list, true, false⟩ : LysNode).nodetype = NodeType.list ∧
            (⟨NodeType.list, true, false⟩ : LysNode).keyless = false)) :=
  C9_is_supported_iff ⟨some ⟨NodeType.list, true, false⟩⟩ ⟨NodeType.list, true, false⟩ rfl

/-- C10: `lyds_unlink` returns with no state change when called with a NULL
node, a NULL leader reference, or a leader reference to NULL, and
`lyds_is_supported` returns false for an opaque node (one without a
schema). -/
theorem C10_null_tolerance :
    (∀ (s : RunState) (lp : Option (Option LydNode)), lyds_unlink s lp none = s) ∧
    (∀ (s : RunState) (np : Option LydNode), lyds_unlink s none np = s) ∧
    (∀ (s : RunState) (np : Option LydNode), lyds_unlink s (some none) np = s) ∧
    lyds_is_supported ⟨none⟩ = false := by
  refine ⟨fun s lp => ?_, fun s np => ?_, fun s np => ?_, rfl⟩
  · cases lp <;> rfl
  · cases np <;> rfl
  · cases np <;> rfl

/-- C7: `lyds_unlink` is a no-op when the run has no Anchor Record or exactly
one member: the returned state (tree, Anchor Record, metadata and linkage)
is the input state. -/
theorem C7_unlink_noop (s : RunState) (leader x : LydNode)
    (h : s.anchorAt = none ∨ s.list.length = 1) :
    lyds_unlink s (some (some leader)) (some x) = s := by
  show lyds_unlink_core s leader x = s
  rcases h with h | h <;> simp [lyds_unlink_core, h]

/-- Witness for C7: removing from a single-member run changes nothing. -/
theorem C7_unlink_noop_witness :
    lyds_unlink ⟨[⟨5, 7⟩], some 5, RbTree.node Color.black RbTree.nil ⟨5, 7⟩ RbTree.nil⟩
      (some (some ⟨5, 7⟩)) (some ⟨5, 7⟩) =
      ⟨[⟨5, 7⟩], some 5, RbTree.node Color.black RbTree.nil ⟨5, 7⟩ RbTree.nil⟩ :=
  C7_unlink_noop _ _ _ (Or.inr rfl)

lemma postorder_length : ∀ t : RbTree, (postorder t).length = tsize t
  | .nil => rfl
  | .node _ l _ r => by
    simp [postorder, tsize, postorder_length l, postorder_length r]
    omega

lemma postorder_perm_inorder : ∀ t : RbTree, (postorder t).Perm (inorder t)
  | .nil => List.Perm.refl _
  | .node c l d r => by
    simp only [postorder, inorder]
    have h1 : (postorder l ++ postorder r ++ [d]).Perm (postorder l ++ ([d] ++ postorder r)) := by
      rw [List.append_assoc]
      exact List.Perm.append_left _ List.perm_append_comm
    exact h1.trans ((postorder_perm_inorder l).append
      ((List.Perm.refl [d]).append (postorder_perm_inorder r)))

lemma tsize_pos {c : Color} {l : RbTree} {d : LydNode} {r : RbTree} :
    1 ≤ tsize (RbTree.node c l d r) := by
  simp [tsize]

lemma rb_iter_traversal_spec : ∀ (t : RbTree) (p : RbPath), t ≠ RbTree.nil →
    ∃ d0 st, rb_iter_traversal p t = some (d0, st) ∧
      postorder t ++ restOf p =
        d0 :: (match st with
               | none => []
               | some (q, u) => postorder u ++ restOf q) ∧
      (∀ q u, st = some (q, u) → u ≠ RbTree.nil ∧
        tsize u + (restOf q).length + 1 = tsize t + (restOf p).length) := by
  intro t
  induction t with
  | nil => intro p h; exact absurd rfl h
  | node c l d r ihl ihr =>
    intro p _
    match l, r with
    | RbTree.node lc ll ld lr, r =>
      obtain ⟨d0, st, h1, h2, h3⟩ := ihl (RbPath.leftOf c d r p) (by simp)
      refine ⟨d0, st, ?_, ?_, ?_⟩
      · simpa [rb_iter_traversal] using h1
      · rw [← h2]; simp [postorder, restOf]
      · intro q u hq
        obtain ⟨hu, hsz⟩ := h3 q u hq
        refine ⟨hu, ?_⟩
        rw [hsz]
        simp [restOf, tsize, postorder_length]
        omega
    | RbTree.nil, RbTree.node rc rl rd rr =>
      obtain ⟨d0, st, h1, h2, h3⟩ := ihr (RbPath.rightOf c d RbTree.nil p) (by simp)
      refine ⟨d0, st, ?_, ?_, ?_⟩
      · simpa [rb_iter_traversal] using h1
      · rw [← h2]; simp [postorder, restOf]
      · intro q u hq
        obtain ⟨hu, hsz⟩ := h3 q u hq
        refine ⟨hu, ?_⟩
        rw [hsz]
        simp [restOf, tsize, postorder_length]
        omega
    | RbTree.nil, RbTree.nil =>
      match p with
      | RbPath.root =>
        exact ⟨d, none, rfl, by simp [postorder, restOf], by intro q u hq; cases hq⟩
      | RbPath.leftOf c2 pd r2 up =>
        refine ⟨d, some (up, RbTree.node c2 RbTree.nil pd r2), rfl, ?_, ?_⟩
        · simp [postorder, restOf]
        · intro q u hq
          obtain ⟨rfl, rfl⟩ : up = q ∧ RbTree.node c2 RbTree.nil pd r2 = u := by
            simpa using hq
          refine ⟨by simp, ?_⟩
          simp [restOf, tsize, postorder_length]
          omega
      | RbPath.rightOf c2 pd l2 up =>
        refine ⟨d, some (up, RbTree.node c2 l2 pd RbTree.nil), rfl, ?_, ?_⟩
        · simp [postorder, restOf]
        · intro q u hq
          obtain ⟨rfl, rfl⟩ : up = q ∧ RbTree.node c2 l2 pd RbTree.nil = u := by
            simpa using hq
          refine ⟨by simp, ?_⟩
          simp [restOf, tsize, postorder_length]
          omega

lemma lyds_free_tree_go_spec : ∀ (fuel : Nat) (p : RbPath) (t : RbTree), t ≠ RbTree.nil →
    tsize t + (restOf p).length ≤ fuel →
    lyds_free_tree_go fuel (some (p, t)) = postorder t ++ restOf p := by
  intro fuel
  induction fuel with
  | zero =>
    intro p t ht hle
    exfalso
    match t, ht with
    | RbTree.node c l d r, _ =>
      have := @tsize_pos c l d r
      omega
  | succ fuel ih =>
    intro p t ht hle
    obtain ⟨d0, st, h1, h2, h3⟩ := rb_iter_traversal_spec t p ht
    match st, h2, h3 with
    | none, h2, _ =>
      have hgo : lyds_free_tree_go fuel none = [] := by cases fuel <;> rfl
      simp only [lyds_free_tree_go, h1, hgo]
      exact (by simpa using h2 : postorder t ++ restOf p = [d0]).symm
    | some (q, u), h2, h3 =>
      obtain ⟨hu, hsz⟩ := h3 q u rfl
      simp only [lyds_free_tree_go, h1]
      rw [ih q u hu (by omega)]
      exact (by simpa using h2 : postorder t ++ restOf p = _).symm

/-- C8: `lyds_free_tree` (a total function, hence terminating) visits and
frees every red-black cell of any tree — the empty one included — exactly
once: the list of freed cells is precisely the destructive post-order
traversal of the tree, a permutation of the in-order node list (so each
cell is visited once and none twice). -/
theorem C8_free_tree_exactly_once (rbt : RbTree) :
    lyds_free_tree rbt = postorder rbt ∧ (lyds_free_tree rbt).Perm (inorder rbt) := by
  have heq : lyds_free_tree rbt = postorder rbt := by
    match rbt with
    | RbTree.nil => rfl
    | RbTree.node c l d r =>
      have := lyds_free_tree_go_spec (tsize (RbTree.node c l d r) + 1) RbPath.root
        (RbTree.node c l d r) (by simp) (by simp [restOf])
      simpa [lyds_free_tree, restOf] using this
  exact ⟨heq, heq ▸ postorder_perm_inorder rbt⟩

lemma inorder_setBlack (t : RbTree) : inorder (setBlack t) = inorder t := by
  cases t <;> rfl

lemma inorder_rotate_left (t : RbTree) : inorder (rb_rotate_left t) = inorder t := by
  match t with
  | .nil => rfl
  | .node _ _ _ .nil => rfl
  | .node c l d (.node c2 rl d2 rr) => simp [rb_rotate_left, inorder]

lemma inorder_rotate_right (t : RbTree) : inorder (rb_rotate_right t) = inorder t := by
  match t with
  | .nil => rfl
  | .node _ .nil _ _ => rfl
  | .node c (.node c2 ll d2 lr) d r => simp [rb_rotate_right, inorder]

lemma inorder_plug : ∀ (p : RbPath) (t : RbTree),
    inorder (plug p t) = beforeP p ++ inorder t ++ afterP p := by
  intro p
  induction p with
  | root => intro t; simp [plug, beforeP, afterP]
  | leftOf c d r up ih => intro t; simp [plug, ih, beforeP, afterP, inorder]
  | rightOf c d l up ih => intro t; simp [plug, ih, beforeP, afterP, inorder]

lemma inorder_insert_color : ∀ (p : RbPath) (t : RbTree),
    inorder (rb_insert_color p t) = beforeP p ++ inorder t ++ afterP p := by
  intro p t
  induction p, t using rb_insert_color.induct <;>
    simp_all [rb_insert_color, inorder_plug, inorder_setBlack, inorder_rotate_left,
      inorder_rotate_right, inorder, beforeP, afterP]

lemma insSpot_append (x : LydNode) : ∀ t : RbTree,
    (insSpot x t).1 ++ (insSpot x t).2 = inorder t
  | .nil => rfl
  | .node c l d r => by
    by_cases h : rb_compare d x > 0
    · simp only [insSpot, if_pos h]
      rw [← List.append_assoc, insSpot_append x l]
      simp [inorder]
    · simp only [insSpot, if_neg h]
      rw [List.append_assoc]
      simp [inorder, insSpot_append x r]

lemma rb_descend_spec (x : LydNode) : ∀ (t : RbTree) (p : RbPath),
    beforeP (rb_descend t x p) = beforeP p ++ (insSpot x t).1 ∧
    afterP (rb_descend t x p) = (insSpot x t).2 ++ afterP p := by
  intro t
  induction t with
  | nil => intro p; simp [rb_descend, insSpot]
  | node c l d r ihl ihr =>
    intro p
    by_cases h : rb_compare d x > 0
    · have := ihl (RbPath.leftOf c d r p)
      simp only [rb_descend, if_pos h]
      simp only [insSpot, if_pos h]
      refine ⟨?_, ?_⟩
      · rw [this.1]; simp [beforeP]
      · rw [this.2]; simp [afterP]
    · have := ihr (RbPath.rightOf c d l p)
      simp only [rb_descend, if_neg h]
      simp only [insSpot, if_neg h]
      refine ⟨?_, ?_⟩
      · rw [this.1]; simp [beforeP]
      · rw [this.2]; simp [afterP]

lemma inorder_insert (t : RbTree) (x : LydNode) :
    inorder (rb_insert_node t x) = (insSpot x t).1 ++ x :: (insSpot x t).2 := by
  unfold rb_insert_node
  rw [inorder_insert_color]
  have h := rb_descend_spec x t RbPath.root
  rw [h.1, h.2]
  simp [beforeP, afterP, inorder]

lemma rb_compare_pos {d x : LydNode} : rb_compare d x > 0 ↔ x.val < d.val := by
  unfold rb_compare
  split_ifs with h1 h2 <;> simp <;> omega

lemma rb_compare_neg {d x : LydNode} : rb_compare d x < 0 ↔ d.val < x.val := by
  unfold rb_compare
  split_ifs with h1 h2 <;> simp <;> omega

lemma rb_compare_zero {d x : LydNode} : rb_compare d x = 0 ↔ d.val = x.val := by
  unfold rb_compare
  split_ifs with h1 h2 <;> simp <;> omega

lemma sortedVals_append {l1 l2 : List LydNode} :
    SortedVals (l1 ++ l2) ↔
      SortedVals l1 ∧ SortedVals l2 ∧ ∀ a ∈ l1, ∀ b ∈ l2, a.val ≤ b.val := by
  unfold SortedVals
  exact List.pairwise_append

lemma sortedVals_middle {l1 l2 : List LydNode} {d : LydNode}
    (h : SortedVals (l1 ++ d :: l2)) :
    SortedVals l1 ∧ SortedVals l2 ∧ (∀ a ∈ l1, a.val ≤ d.val) ∧
      (∀ b ∈ l2, d.val ≤ b.val) ∧ ∀ a ∈ l1, ∀ b ∈ l2, a.val ≤ b.val := by
  rw [sortedVals_append] at h
  obtain ⟨h1, h2, h3⟩ := h
  rw [SortedVals, List.pairwise_cons] at h2
  refine ⟨h1, h2.2, fun a ha => h3 a ha d (by simp), h2.1, ?_⟩
  intro a ha b hb
  exact h3 a ha b (by simp [hb])

lemma insSpot_bounds (x : LydNode) : ∀ t : RbTree, SortedVals (inorder t) →
    (∀ a ∈ (insSpot x t).1, a.val ≤ x.val) ∧ ∀ b ∈ (insSpot x t).2, x.val < b.val := by
  intro t
  induction t with
  | nil => intro _; simp [insSpot]
  | node c l d r ihl ihr =>
    intro hs
    rw [inorder] at hs
    obtain ⟨hl, hr, hld, hdr, _⟩ := sortedVals_middle hs
    by_cases h : rb_compare d x > 0
    · have hdx : x.val < d.val := rb_compare_pos.mp h
      obtain ⟨ih1, ih2⟩ := ihl hl
      simp only [insSpot, if_pos h]
      refine ⟨ih1, ?_⟩
      intro b hb
      rcases List.mem_append.mp hb with hb | hb
      · exact ih2 b hb
      · rcases List.mem_cons.mp hb with rfl | hb
        · exact hdx
        · exact lt_of_lt_of_le hdx (hdr b hb)
    · have hdx : d.val ≤ x.val := by
        rcases lt_trichotomy d.val x.val with h1 | h1 | h1
        · exact le_of_lt h1
        · exact le_of_eq h1
        · exact absurd (rb_compare_pos.mpr h1) h
      obtain ⟨ih1, ih2⟩ := ihr hr
      simp only [insSpot, if_neg h]
      refine ⟨?_, ih2⟩
      intro a ha
      rcases List.mem_append.mp ha with ha | ha
      · exact le_trans (hld a ha) hdx
      · rcases List.mem_cons.mp ha with rfl | ha
        · exact hdx
        · exact ih1 a ha

lemma sorted_inorder_insert {t : RbTree} {x : LydNode} (hs : SortedVals (inorder t)) :
    SortedVals (inorder (rb_insert_node t x)) := by
  rw [inorder_insert]
  obtain ⟨hA, hxB⟩ := insSpot_bounds x t hs
  have hsplit := insSpot_append x t
  rw [← hsplit] at hs
  rw [sortedVals_append] at hs
  obtain ⟨h1, h2, h3⟩ := hs
  rw [sortedVals_append]
  refine ⟨h1, ?_, ?_⟩
  · rw [SortedVals, List.pairwise_cons]
    exact ⟨fun b hb => le_of_lt (hxB b hb), h2⟩
  · intro a ha b hb
    rcases List.mem_cons.mp hb with rfl | hb
    · exact hA a ha
    · exact h3 a ha b hb

lemma ids_inorder_insert (t : RbTree) (x : LydNode) :
    List.Perm ((inorder (rb_insert_node t x)).map LydNode.id)
      (x.id :: (inorder t).map LydNode.id) := by
  rw [inorder_insert, ← insSpot_append x t]
  simp only [List.map_append, List.map_cons]
  exact List.perm_middle

lemma nodup_inorder_insert {t : RbTree} {x : LydNode} (hn : IdsNodup (inorder t))
    (hx : x.id ∉ (inorder t).map LydNode.id) :
    IdsNodup (inorder (rb_insert_node t x)) := by
  have := (ids_inorder_insert t x).nodup_iff
  rw [IdsNodup, this, List.nodup_cons]
  exact ⟨hx, hn⟩

lemma mem_inorder_insert (t : RbTree) (x : LydNode) :
    x ∈ inorder (rb_insert_node t x) := by
  rw [inorder_insert]
  simp

lemma findPosById_spec : ∀ (t : RbTree) (p : RbPath) (k : Nat) (q : RbPath) (v : RbTree),
    findPosById p t k = some (q, v) →
    plug q v = plug p t ∧ v ≠ RbTree.nil ∧ (rootD v).id = k := by
  intro t
  induction t with
  | nil => intro p k q v h; simp [findPosById] at h
  | node c l d r ihl ihr =>
    intro p k q v h
    rw [findPosById] at h
    by_cases hd : d.id = k
    · rw [if_pos hd] at h
      obtain ⟨rfl, rfl⟩ : p = q ∧ RbTree.node c l d r = v := by simpa using h
      exact ⟨rfl, by simp, hd⟩
    · rw [if_neg hd] at h
      match hfl : findPosById (RbPath.leftOf c d r p) l k with
      | some res =>
        rw [hfl] at h
        obtain rfl : res = (q, v) := by simpa using h
        obtain ⟨h1, h2, h3⟩ := ihl (RbPath.leftOf c d r p) k q v hfl
        exact ⟨by rw [h1]; rfl, h2, h3⟩
      | none =>
        rw [hfl] at h
        obtain ⟨h1, h2, h3⟩ := ihr (RbPath.rightOf c d l p) k q v (by simpa using h)
        exact ⟨by rw [h1]; rfl, h2, h3⟩

lemma findPosById_mem : ∀ (t : RbTree) (p : RbPath) (k : Nat),
    k ∈ (inorder t).map LydNode.id → ∃ q v, findPosById p t k = some (q, v) := by
  intro t
  induction t with
  | nil => intro p k h; simp [inorder] at h
  | node c l d r ihl ihr =>
    intro p k h
    rw [findPosById]
    by_cases hd : d.id = k
    · exact ⟨p, RbTree.node c l d r, by rw [if_pos hd]⟩
    · rw [if_neg hd]
      simp only [inorder, List.map_append, List.map_cons, List.mem_append, List.mem_cons] at h
      rcases h with h | h
      · obtain ⟨q, v, hq⟩ := ihl (RbPath.leftOf c d r p) k h
        exact ⟨q, v, by rw [hq]⟩
      · rcases h with h | h
        · exact absurd h.symm hd
        · match hfl : findPosById (RbPath.leftOf c d r p) l k with
          | some res => exact ⟨res.1, res.2, by simp [hfl]⟩
          | none =>
            obtain ⟨q, v, hq⟩ := ihr (RbPath.rightOf c d l p) k h
            exact ⟨q, v, by simp [hfl, hq]⟩

lemma rb_rightmost_spec : ∀ (t : RbTree) (p : RbPath), t ≠ RbTree.nil →
    ∃ q v, rb_rightmost p t = (q, v) ∧ v ≠ RbTree.nil ∧ plug q v = plug p t ∧
      beforeP q ++ inorder (leftT v) ++ [rootD v] = beforeP p ++ inorder t := by
  intro t
  induction t with
  | nil => intro p h; exact absurd rfl h
  | node c l d r ihl ihr =>
    intro p _
    match r with
    | RbTree.nil =>
      refine ⟨p, RbTree.node c l d RbTree.nil, rfl, by simp, rfl, ?_⟩
      simp [leftT, rootD, inorder]
    | RbTree.node rc rl rd rr =>
      obtain ⟨q, v, h1, h2, h3, h4⟩ := ihr (RbPath.rightOf c d l p) (by simp)
      refine ⟨q, v, by simpa [rb_rightmost] using h1, h2, by rw [h3]; rfl, ?_⟩
      rw [h4]
      simp [beforeP, inorder]

lemma rb_leftmost_spec : ∀ (t : RbTree) (p : RbPath), t ≠ RbTree.nil →
    ∃ q v, rb_leftmost p t = (q, v) ∧ v ≠ RbTree.nil ∧ plug q v = plug p t ∧
      rootD v :: (inorder (rightT v) ++ afterP q) = inorder t ++ afterP p := by
  intro t
  induction t with
  | nil => intro p h; exact absurd rfl h
  | node c l d r ihl ihr =>
    intro p _
    match l with
    | RbTree.nil =>
      refine ⟨p, RbTree.node c RbTree.nil d r, rfl, by simp, rfl, ?_⟩
      simp [rightT, rootD, inorder]
    | RbTree.node lc ll ld lr =>
      obtain ⟨q, v, h1, h2, h3, h4⟩ := ihl (RbPath.leftOf c d r p) (by simp)
      refine ⟨q, v, by simpa [rb_leftmost] using h1, h2, by rw [h3]; rfl, ?_⟩
      rw [h4]
      simp [afterP, inorder]

lemma rb_up_while_left_spec : ∀ (p : RbPath) (t : RbTree),
    (rb_up_while_left p t = none → beforeP p = []) ∧
    (∀ q v, rb_up_while_left p t = some (q, v) → v ≠ RbTree.nil ∧ plug q v = plug p t ∧
      beforeP q ++ inorder (leftT v) ++ [rootD v] = beforeP p) := by
  intro p
  induction p with
  | root =>
    intro t
    exact ⟨fun _ => rfl, fun q v h => by simp [rb_up_while_left] at h⟩
  | leftOf c d r up ih =>
    intro t
    refine ⟨fun h => (ih (RbTree.node c t d r)).1 h, fun q v h => ?_⟩
    obtain ⟨h1, h2, h3⟩ := (ih (RbTree.node c t d r)).2 q v h
    exact ⟨h1, h2, h3⟩
  | rightOf c d l up ih =>
    intro t
    refine ⟨fun h => by simp [rb_up_while_left] at h, fun q v h => ?_⟩
    obtain ⟨rfl, rfl⟩ : up = q ∧ RbTree.node c l d t = v := by
      simpa [rb_up_while_left] using h
    exact ⟨by simp, rfl, by simp [beforeP, leftT, rootD]⟩

lemma rb_up_while_right_spec : ∀ (p : RbPath) (t : RbTree),
    (rb_up_while_right p t = none → afterP p = []) ∧
    (∀ q v, rb_up_while_right p t = some (q, v) → v ≠ RbTree.nil ∧ plug q v = plug p t ∧
      rootD v :: (inorder (rightT v) ++ afterP q) = afterP p) := by
  intro p
  induction p with
  | root =>
    intro t
    exact ⟨fun _ => rfl, fun q v h => by simp [rb_up_while_right] at h⟩
  | rightOf c d l up ih =>
    intro t
    refine ⟨fun h => (ih (RbTree.node c l d t)).1 h, fun q v h => ?_⟩
    obtain ⟨h1, h2, h3⟩ := (ih (RbTree.node c l d t)).2 q v h
    exact ⟨h1, h2, h3⟩
  | leftOf c d r up ih =>
    intro t
    refine ⟨fun h => by simp [rb_up_while_right] at h, fun q v h => ?_⟩
    obtain ⟨rfl, rfl⟩ : up = q ∧ RbTree.node c t d r = v := by
      simpa [rb_up_while_right] using h
    exact ⟨by simp, rfl, by simp [afterP, rightT, rootD]⟩

lemma rb_prev_pos_spec (p : RbPath) (c : Color) (l : RbTree) (d : LydNode) (r : RbTree) :
    (rb_prev_pos p (RbTree.node c l d r) = none → beforeP p ++ inorder l = []) ∧
    (∀ q v, rb_prev_pos p (RbTree.node c l d r) = some (q, v) →
      v ≠ RbTree.nil ∧ plug q v = plug p (RbTree.node c l d r) ∧
      beforeP q ++ inorder (leftT v) ++ [rootD v] = beforeP p ++ inorder l) := by
  match l with
  | RbTree.nil =>
    have h := rb_up_while_left_spec p (RbTree.node c RbTree.nil d r)
    refine ⟨fun hn => ?_, fun q v hq => ?_⟩
    · simpa [inorder] using h.1 (by simpa [rb_prev_pos] using hn)
    · obtain ⟨h1, h2, h3⟩ := h.2 q v (by simpa [rb_prev_pos] using hq)
      exact ⟨h1, h2, by simpa [inorder] using h3⟩
  | RbTree.node lc ll ld lr =>
    obtain ⟨q, v, h1, h2, h3, h4⟩ :=
      rb_rightmost_spec (RbTree.node lc ll ld lr) (RbPath.leftOf c d r p) (by simp)
    refine ⟨fun hn => ?_, fun q2 v2 hq => ?_⟩
    · rw [rb_prev_pos, h1] at hn; cases hn
    · rw [rb_prev_pos, h1] at hq
      obtain ⟨rfl, rfl⟩ : q = q2 ∧ v = v2 := by simpa using hq
      exact ⟨h2, h3, by simpa [beforeP] using h4⟩

lemma rb_next_pos_spec (p : RbPath) (c : Color) (l : RbTree) (d : LydNode) (r : RbTree) :
    (rb_next_pos p (RbTree.node c l d r) = none → inorder r ++ afterP p = []) ∧
    (∀ q v, rb_next_pos p (RbTree.node c l d r) = some (q, v) →
      v ≠ RbTree.nil ∧ plug q v = plug p (RbTree.node c l d r) ∧
      rootD v :: (inorder (rightT v) ++ afterP q) = inorder r ++ afterP p) := by
  match r with
  | RbTree.nil =>
    have h := rb_up_while_right_spec p (RbTree.node c l d RbTree.nil)
    refine ⟨fun hn => ?_, fun q v hq => ?_⟩
    · simpa [inorder] using h.1 (by simpa [rb_next_pos] using hn)
    · obtain ⟨h1, h2, h3⟩ := h.2 q v (by simpa [rb_next_pos] using hq)
      exact ⟨h1, h2, by simpa [inorder] using h3⟩
  | RbTree.node rc rl rd rr =>
    obtain ⟨q, v, h1, h2, h3, h4⟩ :=
      rb_leftmost_spec (RbTree.node rc rl rd rr) (RbPath.rightOf c d l p) (by simp)
    refine ⟨fun hn => ?_, fun q2 v2 hq => ?_⟩
    · rw [rb_next_pos, h1] at hn; cases hn
    · rw [rb_next_pos, h1] at hq
      obtain ⟨rfl, rfl⟩ : q = q2 ∧ v = v2 := by simpa using hq
      exact ⟨h2, h3, by simpa [afterP] using h4⟩

lemma id_eq_of_mem {l : List LydNode} (hn : IdsNodup l) {a b : LydNode}
    (ha : a ∈ l) (hb : b ∈ l) (hid : a.id = b.id) : a = b :=
  List.inj_on_of_nodup_map hn ha hb hid

lemma inorder_eq_nil {t : RbTree} : inorder t = [] ↔ t = RbTree.nil := by
  cases t <;> simp [inorder]

lemma nodup_middle_not_mem {l1 l2 : List Nat} {k : Nat} (h : (l1 ++ k :: l2).Nodup) :
    k ∉ l1 ∧ k ∉ l2 := by
  rw [List.nodup_append] at h
  obtain ⟨h1, h2, h3⟩ := h
  rw [List.nodup_cons] at h2
  exact ⟨fun hm => h3 hm (by simp), h2.1⟩

lemma unique_split : ∀ {A B C D : List LydNode} {x : LydNode},
    A ++ x :: B = C ++ x :: D → x.id ∉ A.map LydNode.id → x.id ∉ C.map LydNode.id →
    A = C ∧ B = D := by
  intro A
  induction A with
  | nil =>
    intro B C D x h _ hC
    match C, h with
    | [], h => simpa using h
    | y :: C2, h =>
      obtain ⟨rfl, h2⟩ : x = y ∧ B = C2 ++ x :: D := by simpa using h
      exact absurd (by simp) hC
  | cons a A2 ih =>
    intro B C D x h hA hC
    match C, h with
    | [], h =>
      obtain ⟨rfl, h2⟩ : a = x ∧ A2 ++ x :: B = D := by simpa using h
      exact absurd (by simp) hA
    | y :: C2, h =>
      obtain ⟨rfl, h2⟩ : a = y ∧ A2 ++ x :: B = C2 ++ x :: D := by simpa using h
      obtain ⟨h3, h4⟩ := ih h2 (fun hm => hA (by simp [hm])) (fun hm => hC (by simp [hm]))
      exact ⟨by rw [h3], h4⟩

lemma insertAfterId_append : ∀ {A : List LydNode} {pid : Nat},
    pid ∉ A.map LydNode.id → ∀ {y : LydNode}, y.id = pid → ∀ (B : List LydNode) (x : LydNode),
    insertAfterId pid x (A ++ y :: B) = A ++ y :: x :: B := by
  intro A
  induction A with
  | nil =>
    intro pid _ y hy B x
    simp [insertAfterId, hy]
  | cons a A2 ih =>
    intro pid hpid y hy B x
    rw [List.map_cons] at hpid
    have ha : ¬a.id = pid := fun h => hpid (by simp [h])
    show insertAfterId pid x (a :: (A2 ++ y :: B)) = a :: (A2 ++ y :: x :: B)
    simp only [insertAfterId, if_neg ha]
    exact congrArg (a :: ·) (ih (fun h => hpid (by simp [h])) hy B x)

lemma lyds_link_data_node_spec {t : RbTree} {x : LydNode} (anchor : Option Nat)
    (hn : IdsNodup (inorder t)) (hx : x.id ∉ (inorder t).map LydNode.id) :
    lyds_link_data_node (inorder t) x (rb_insert_node t x) anchor =
      (inorder (rb_insert_node t x),
        if (insSpot x t).1 = [] then some x.id else anchor) := by
  have hnod2 : IdsNodup (inorder (rb_insert_node t x)) := nodup_inorder_insert hn hx
  have hmem : x ∈ inorder (rb_insert_node t x) := mem_inorder_insert t x
  have hmemid : x.id ∈ (inorder (rb_insert_node t x)).map LydNode.id :=
    List.mem_map_of_mem _ hmem
  obtain ⟨p, u, hfind⟩ := findPosById_mem (rb_insert_node t x) RbPath.root x.id hmemid
  obtain ⟨hplug, hunil, hid⟩ := findPosById_spec _ _ _ _ _ hfind
  rw [plug] at hplug
  match u, hunil with
  | RbTree.node uc ul ud ur, _ =>
    have hud : ud = x := by
      refine id_eq_of_mem hnod2 ?_ hmem hid
      rw [← hplug, inorder_plug]
      simp [inorder]
    subst hud
    have h0 := inorder_plug p (RbTree.node uc ul ud ur)
    rw [hplug, inorder_insert] at h0
    have hdecomp : (beforeP p ++ inorder ul) ++ ud :: (inorder ur ++ afterP p) =
        (insSpot ud t).1 ++ ud :: (insSpot ud t).2 := by
      rw [h0]
      simp [inorder]
    have hxA : ud.id ∉ ((beforeP p ++ inorder ul).map LydNode.id) := by
      have hn2 : (((beforeP p ++ inorder ul).map LydNode.id) ++
          ud.id :: ((inorder ur ++ afterP p).map LydNode.id)).Nodup := by
        have := hnod2
        rw [IdsNodup, ← hplug, inorder_plug] at this
        simpa [inorder] using this
      exact (nodup_middle_not_mem hn2).1
    have hxC : ud.id ∉ ((insSpot ud t).1.map LydNode.id) := by
      intro hm
      apply hx
      rw [← insSpot_append ud t]
      rw [List.map_append]
      exact List.mem_append.mpr (Or.inl hm)
    have hsplit : beforeP p ++ inorder ul = (insSpot ud t).1 ∧
        inorder ur ++ afterP p = (insSpot ud t).2 :=
      unique_split hdecomp hxA hxC
    have hprev := rb_prev_pos_spec p uc ul ud ur
    match hpv : rb_prev_pos p (RbTree.node uc ul ud ur) with
    | none =>
      have hempty : (insSpot ud t).1 = [] := by
        rw [← hsplit.1]; exact hprev.1 hpv
      rw [if_pos hempty]
      simp only [lyds_link_data_node, hfind, hpv]
      have hlist : inorder t = (insSpot ud t).2 := by
        rw [← insSpot_append ud t, hempty, List.nil_append]
      rw [inorder_insert, hempty, List.nil_append, hlist]
    | some (q, v) =>
      obtain ⟨hvnil, hvplug, hvbefore⟩ := hprev.2 q v hpv
      rw [hsplit.1] at hvbefore
      have hA : (insSpot ud t).1 =
          (beforeP q ++ inorder (leftT v)) ++ [rootD v] := hvbefore.symm
      have hAne : (insSpot ud t).1 ≠ [] := by rw [hA]; simp
      rw [if_neg hAne]
      simp only [lyds_link_data_node, hfind, hpv]
      have hrv : (rootD v).id ∉ (beforeP q ++ inorder (leftT v)).map LydNode.id := by
        have hnodA : IdsNodup ((insSpot ud t).1) := by
          have hfull : IdsNodup ((insSpot ud t).1 ++ (insSpot ud t).2) := by
            rw [insSpot_append]; exact hn
          rw [IdsNodup, List.map_append] at hfull
          exact hfull.of_append_left
        rw [hA, IdsNodup, List.map_append] at hnodA
        intro hmem2
        exact (List.disjoint_of_nodup_append hnodA) hmem2 (by simp)
      have hlist2 : inorder t =
          ((beforeP q ++ inorder (leftT v)) ++ rootD v :: (insSpot ud t).2) := by
        rw [← insSpot_append ud t, hA]
        simp
      rw [hlist2, insertAfterId_append hrv rfl]
      rw [inorder_insert, hA]
      simp

lemma headI_append {A B : List LydNode} (h : A ≠ []) : (A ++ B).headI = A.headI := by
  match A, h with
  | a :: A2, _ => rfl

lemma lyds_insert_p_meta {s : RunState} {x : LydNode}
    (hmeta : s.anchorAt = some (s.list.headI).id) (hrbt : s.rbt ≠ RbTree.nil) :
    lyds_insert_p s x =
      ⟨(lyds_link_data_node s.list x (rb_insert_node s.rbt x) s.anchorAt).1,
       (lyds_link_data_node s.list x (rb_insert_node s.rbt x) s.anchorAt).2,
       rb_insert_node s.rbt x⟩ := by
  simp only [lyds_insert_p, if_pos hmeta, if_neg hrbt]

lemma lyds_insert_p_nometa {s : RunState} {x : LydNode}
    (hmeta : ¬ s.anchorAt = some (s.list.headI).id) :
    lyds_insert_p s x =
      ⟨(lyds_link_data_node s.list x (rb_insert_node (lyds_build s.list.headI s.list.tail) x)
          (some (s.list.headI).id)).1,
       (lyds_link_data_node s.list x (rb_insert_node (lyds_build s.list.headI s.list.tail) x)
          (some (s.list.headI).id)).2,
       rb_insert_node (lyds_build s.list.headI s.list.tail) x⟩ := by
  simp only [lyds_insert_p, if_neg hmeta, if_pos rfl]
  simp

lemma goodState_core (t : RbTree) (x : LydNode) (anch : Option Nat)
    (hsort : SortedVals (inorder t)) (hnod : IdsNodup (inorder t))
    (hne : inorder t ≠ []) (hanch : anch = some ((inorder t).headI).id)
    (hx : x.id ∉ (inorder t).map LydNode.id) :
    GoodState ⟨(lyds_link_data_node (inorder t) x (rb_insert_node t x) anch).1,
               (lyds_link_data_node (inorder t) x (rb_insert_node t x) anch).2,
               rb_insert_node t x⟩ ∧
      List.Perm ((lyds_link_data_node (inorder t) x (rb_insert_node t x) anch).1.map
        LydNode.id) (x.id :: (inorder t).map LydNode.id) := by
  rw [lyds_link_data_node_spec anch hnod hx]
  have hnod2 := nodup_inorder_insert hnod hx
  have hsort2 := sorted_inorder_insert (t := t) (x := x) hsort
  have hne2 : inorder (rb_insert_node t x) ≠ [] := by
    rw [inorder_insert]; simp
  refine ⟨⟨rfl, hsort2, hnod2, hne2, ?_,
    fun hnil => hne2 (by rw [show rb_insert_node t x = RbTree.nil from hnil]; rfl)⟩, ?_⟩
  · by_cases hA : (insSpot x t).1 = []
    · rw [if_pos hA, inorder_insert, hA]
      simp
    · rw [if_neg hA, hanch, inorder_insert]
      rw [show inorder t = (insSpot x t).1 ++ (insSpot x t).2 from (insSpot_append x t).symm]
      rw [headI_append hA, headI_append hA]
  · exact ids_inorder_insert t x

lemma goodState_insert {s : RunState} {x : LydNode} (hg : GoodState s)
    (hx : x.id ∉ s.list.map LydNode.id) :
    GoodState (lyds_insert_p s x) ∧
      List.Perm ((lyds_insert_p s x).list.map LydNode.id) (x.id :: s.list.map LydNode.id) := by
  obtain ⟨hlist, hsort, hnod, hne, hanch, hrbt⟩ := hg
  rw [lyds_insert_p_meta hanch hrbt, hlist]
  exact goodState_core s.rbt x s.anchorAt (by rw [← hlist]; exact hsort)
    (by rw [← hlist]; exact hnod) (by rw [← hlist]; exact hne)
    (by rw [hanch, hlist]) (by rw [← hlist]; exact hx)

lemma lyds_seq_good : ∀ (xs : List LydNode) (s : RunState),
    GoodState s → IdsNodup (s.list ++ xs) →
    GoodState (xs.foldl lyds_insert_p s) := by
  intro xs
  induction xs with
  | nil =>
    intro s hg _
    exact hg
  | cons x xs ih =>
    intro s hg hnod
    have hnodids : ((s.list.map LydNode.id) ++ x.id :: (xs.map LydNode.id)).Nodup := by
      have := hnod
      rw [IdsNodup, List.map_append, List.map_cons] at this
      exact this
    have hx : x.id ∉ s.list.map LydNode.id := (nodup_middle_not_mem hnodids).1
    obtain ⟨hg2, hperm⟩ := goodState_insert hg hx
    rw [List.foldl_cons]
    apply ih _ hg2
    rw [IdsNodup, List.map_append]
    have hperm2 : List.Perm
        (((lyds_insert_p s x).list.map LydNode.id) ++ xs.map LydNode.id)
        ((s.list.map LydNode.id) ++ x.id :: (xs.map LydNode.id)) :=
      (hperm.append_right _).trans List.perm_middle.symm
    exact hperm2.nodup_iff.mpr hnodids

/-- C1: growing a run by any sequence of `lyds_insert` calls (starting from
its first member `l0`, every allocation succeeding, all node addresses
distinct) keeps the in-order traversal of the red-black tree in
non-decreasing comparator order, and that order is identical to the
doubly-linked-list order of the run.  Because this holds for every sequence
`x0 :: xs`, it holds after each individual insertion of a longer sequence. -/
theorem C1_seq_list_eq_inorder_sorted (l0 x0 : LydNode) (xs : List LydNode)
    (hids : IdsNodup (l0 :: x0 :: xs)) :
    (lyds_insert_seq l0 (x0 :: xs)).list = inorder (lyds_insert_seq l0 (x0 :: xs)).rbt ∧
      SortedVals (inorder (lyds_insert_seq l0 (x0 :: xs)).rbt) := by
  have hids2 : ((l0.id :: x0.id :: []) ++ xs.map LydNode.id).Nodup := by
    have := hids
    rw [IdsNodup, List.map_cons, List.map_cons] at this
    simpa using this
  have hx0 : x0.id ≠ l0.id := by
    rcases List.nodup_cons.mp hids2 with ⟨h1, _⟩
    intro h
    exact h1 (by simp [h])
  have hbase : GoodState (lyds_insert_p ⟨[l0], none, RbTree.nil⟩ x0) ∧
      List.Perm ((lyds_insert_p ⟨[l0], none, RbTree.nil⟩ x0).list.map LydNode.id)
        (x0.id :: [l0.id]) := by
    have hmeta : ¬ (⟨[l0], none, RbTree.nil⟩ : RunState).anchorAt =
        some ((⟨[l0], none, RbTree.nil⟩ : RunState).list.headI).id := by simp
    rw [lyds_insert_p_nometa hmeta]
    have hb : lyds_build l0 [] = RbTree.node Color.black RbTree.nil l0 RbTree.nil := rfl
    have hio : inorder (lyds_build l0 []) = [l0] := by rw [hb]; simp [inorder]
    have := goodState_core (lyds_build l0 []) x0 (some l0.id) (by rw [hio]; simp [SortedVals])
      (by rw [hio]; simp [IdsNodup]) (by rw [hio]; simp) (by rw [hio]; simp)
      (by rw [hio]; simp [hx0])
    simp only [hio] at this
    exact this
  have hseq : lyds_insert_seq l0 (x0 :: xs) =
      xs.foldl lyds_insert_p (lyds_insert_p ⟨[l0], none, RbTree.nil⟩ x0) := rfl
  rw [hseq]
  have hnodup : IdsNodup ((lyds_insert_p ⟨[l0], none, RbTree.nil⟩ x0).list ++ xs) := by
    rw [IdsNodup, List.map_append]
    have hperm : List.Perm
        (((lyds_insert_p ⟨[l0], none, RbTree.nil⟩ x0).list.map LydNode.id) ++ xs.map LydNode.id)
        ((x0.id :: [l0.id]) ++ xs.map LydNode.id) := hbase.2.append_right _
    refine hperm.nodup_iff.mpr ?_
    have : List.Perm ((x0.id :: [l0.id]) ++ xs.map LydNode.id)
        ((l0.id :: x0.id :: []) ++ xs.map LydNode.id) := by
      refine List.Perm.append_right _ ?_
      exact List.Perm.swap _ _ _
    exact this.nodup_iff.mpr hids2
  have hgood := lyds_seq_good xs _ hbase.1 hnodup
  obtain ⟨h1, h2, _, _, _, _⟩ := hgood
  exact ⟨h1, h1 ▸ h2⟩

/-- Witness for C1: the spec's example sequence 5, 3, 8, 1. -/
theorem C1_seq_list_eq_inorder_sorted_witness :
    (lyds_insert_seq ⟨1, 5⟩ (⟨2, 3⟩ :: [⟨3, 8⟩, ⟨4, 1⟩])).list =
        inorder (lyds_insert_seq ⟨1, 5⟩ (⟨2, 3⟩ :: [⟨3, 8⟩, ⟨4, 1⟩])).rbt ∧
      SortedVals (inorder (lyds_insert_seq ⟨1, 5⟩ (⟨2, 3⟩ :: [⟨3, 8⟩, ⟨4, 1⟩])).rbt) :=
  C1_seq_list_eq_inorder_sorted ⟨1, 5⟩ ⟨2, 3⟩ [⟨3, 8⟩, ⟨4, 1⟩] (by decide)

lemma balanced_rootColor : ∀ {t : RbTree} {c : Color} {n : Nat},
    RBal t c n → rootColor t = c := by
  intro t c n h
  cases h <;> rfl

lemma balanced_nil_inv {c : Color} {n : Nat} (h : RBal RbTree.nil c n) :
    c = Color.black ∧ n = 0 := by
  cases h
  exact ⟨rfl, rfl⟩

lemma balanced_red_inv {l r : RbTree} {d : LydNode} {c : Color} {n : Nat}
    (h : RBal (RbTree.node Color.red l d r) c n) :
    c = Color.red ∧ RBal l Color.black n ∧ RBal r Color.black n := by
  cases h
  exact ⟨rfl, by assumption, by assumption⟩

lemma balanced_black_inv {l r : RbTree} {d : LydNode} {c : Color} {n : Nat}
    (h : RBal (RbTree.node Color.black l d r) c n) :
    c = Color.black ∧ ∃ cl cr m, n = m + 1 ∧ RBal l cl m ∧ RBal r cr m := by
  cases h with
  | black hl hr => exact ⟨rfl, _, _, _, rfl, hl, hr⟩

lemma balanced_setBlack : ∀ {t : RbTree} {c : Color} {n : Nat}, RBal t c n →
    ∃ m, RBal (setBlack t) Color.black m ∧ m ≤ n + 1 ∧ n ≤ m := by
  intro t c n h
  cases h with
  | nil => exact ⟨0, RBal.nil, by omega, by omega⟩
  | red hl hr => exact ⟨_, RBal.black hl hr, by omega, by omega⟩
  | black hl hr => exact ⟨_, RBal.black hl hr, by omega, by omega⟩

lemma ctxBal_plug : ∀ {p : RbPath} {pc : Color} {n N : Nat}, CtxBal p pc n N →
    ∀ {t : RbTree} {c : Color}, RBal t c n → (pc = Color.red → c = Color.black) →
    ∃ c2, RBal (plug p t) c2 N := by
  intro p pc n N hctx
  induction hctx with
  | root => intro t c h _; exact ⟨c, h⟩
  | leftB hup hr ih =>
    intro t c h _
    exact ih (RBal.black h hr) (fun _ => rfl)
  | leftR hup hr ih =>
    intro t c h hcompat
    rw [hcompat rfl] at h
    exact ih (RBal.red h hr) (fun heq => Color.noConfusion heq)
  | rightB hup hl ih =>
    intro t c h _
    exact ih (RBal.black hl h) (fun _ => rfl)
  | rightR hup hl ih =>
    intro t c h hcompat
    rw [hcompat rfl] at h
    exact ih (RBal.red hl h) (fun heq => Color.noConfusion heq)

lemma pathTopColor_leftOf {c : Color} {d : LydNode} {r : RbTree} {up : RbPath} :
    pathTopColor (RbPath.leftOf c d r up) =
      if up = RbPath.root then c else pathTopColor up := by
  cases up <;> simp [pathTopColor]

lemma pathTopColor_rightOf {c : Color} {d : LydNode} {l : RbTree} {up : RbPath} :
    pathTopColor (RbPath.rightOf c d l up) =
      if up = RbPath.root then c else pathTopColor up := by
  cases up <;> simp [pathTopColor]

lemma rootColor_plug : ∀ (p : RbPath) (t : RbTree), p ≠ RbPath.root →
    rootColor (plug p t) = pathTopColor p := by
  intro p
  induction p with
  | root => intro t h; exact absurd rfl h
  | leftOf c d r up ih =>
    intro t _
    rw [plug, pathTopColor_leftOf]
    match up with
    | RbPath.root => simp [plug, rootColor]
    | RbPath.leftOf c2 d2 r2 up2 => rw [if_neg (by simp), ih _ (by simp)]
    | RbPath.rightOf c2 d2 l2 up2 => rw [if_neg (by simp), ih _ (by simp)]
  | rightOf c d l up ih =>
    intro t _
    rw [plug, pathTopColor_rightOf]
    match up with
    | RbPath.root => simp [plug, rootColor]
    | RbPath.leftOf c2 d2 r2 up2 => rw [if_neg (by simp), ih _ (by simp)]
    | RbPath.rightOf c2 d2 l2 up2 => rw [if_neg (by simp), ih _ (by simp)]

lemma plug_decomp : ∀ (p : RbPath) (u : RbTree) {c : Color} {N : Nat},
    RBal (plug p u) c N →
    ∃ pc n cu, CtxBal p pc n N ∧ RBal u cu n ∧ (pc = Color.red → cu = Color.black) := by
  intro p
  induction p with
  | root =>
    intro u c N h
    exact ⟨Color.black, N, c, CtxBal.root, h, fun heq => nomatch heq⟩
  | leftOf c2 d r up ih =>
    intro u c N h
    rw [plug] at h
    obtain ⟨pc2, n2, cu2, hctx, hbal, hcompat⟩ := ih _ h
    cases hbal with
    | red hl hr =>
      have hpc2 : pc2 = Color.black := by
        cases pc2
        · exact absurd (hcompat rfl) (fun heq => nomatch heq)
        · rfl
      subst hpc2
      exact ⟨Color.red, n2, Color.black, CtxBal.leftR hctx hr, hl, fun _ => rfl⟩
    | black hl hr =>
      exact ⟨Color.black, _, _, CtxBal.leftB hctx hr, hl, fun heq => nomatch heq⟩
  | rightOf c2 d l up ih =>
    intro u c N h
    rw [plug] at h
    obtain ⟨pc2, n2, cu2, hctx, hbal, hcompat⟩ := ih _ h
    cases hbal with
    | red hl hr =>
      have hpc2 : pc2 = Color.black := by
        cases pc2
        · exact absurd (hcompat rfl) (fun heq => nomatch heq)
        · rfl
      subst hpc2
      exact ⟨Color.red, n2, Color.black, CtxBal.rightR hctx hl, hr, fun _ => rfl⟩
    | black hl hr =>
      exact ⟨Color.black, _, _, CtxBal.rightB hctx hl, hr, fun heq => nomatch heq⟩

lemma bal_black_of_rootColor {t : RbTree} {c : Color} {N : Nat} (h : RBal t c N)
    (hr : rootColor t = Color.black) : RBal t Color.black N := by
  have h2 := balanced_rootColor h
  rw [hr] at h2
  rw [h2]
  exact h

lemma pathTopColor_black_of_bal {p : RbPath} {u : RbTree} {N : Nat}
    (h : RBal (plug p u) Color.black N) : pathTopColor p = Color.black := by
  match p with
  | RbPath.root => rfl
  | RbPath.leftOf c d r up =>
    rw [← rootColor_plug (RbPath.leftOf c d r up) u (by simp)]
    exact balanced_rootColor h
  | RbPath.rightOf c d l up =>
    rw [← rootColor_plug (RbPath.rightOf c d l up) u (by simp)]
    exact balanced_rootColor h

lemma rb_insert_color_balanced :
    ∀ (p : RbPath) (t : RbTree) {pc : Color} {n N : Nat}, CtxBal p pc n N →
    RBal t Color.red n →
    ∃ N2, RBal (rb_insert_color p t) Color.black N2 := by
  intro p t
  induction p, t using rb_insert_color.induct with
  | case1 t =>
    intro pc n N hctx hbal
    simp only [rb_insert_color]
    obtain ⟨m, hm, _⟩ := balanced_setBlack hbal
    exact ⟨m, hm⟩
  | case2 d r up t =>
    intro pc n N hctx hbal
    simp only [rb_insert_color]
    cases hctx with
    | leftB hup hr =>
      obtain ⟨c2, hplug⟩ := ctxBal_plug hup (RBal.black hbal hr) (fun _ => rfl)
      obtain ⟨m, hm, _⟩ := balanced_setBlack hplug
      exact ⟨m, hm⟩
  | case3 d r t =>
    intro pc n N hctx hbal
    simp only [rb_insert_color]
    cases hctx with
    | leftR hup hr => exact ⟨n + 1, by simpa [setBlack] using RBal.black hbal hr⟩
  | case4 d r t c d1 up l d2 r1 ih =>
    intro pc n N hctx hbal
    simp only [rb_insert_color]
    cases hctx with
    | leftR hup1 hr =>
      cases hup1 with
      | leftB hup2 hu =>
        obtain ⟨_, hl, hr1⟩ := balanced_red_inv hu
        exact ih hup2 (RBal.red (RBal.black hbal hr) (RBal.black hl hr1))
  | case5 d r t c d1 up x hexcl =>
    intro pc n N hctx hbal
    simp only [rb_insert_color]
    cases hctx with
    | leftR hup1 hr =>
      cases hup1 with
      | leftB hup2 hu =>
        have hx : RBal x Color.black n := by
          cases hu with
          | nil => exact RBal.nil
          | red h1 h2 => exact (hexcl _ _ _ rfl).elim
          | black h1 h2 => exact RBal.black h1 h2
        have hrot : RBal (rb_rotate_right (RbTree.node Color.red
            (RbTree.node Color.black t d r) d1 x)) Color.black (n + 1) := by
          simp only [rb_rotate_right]
          exact RBal.black hbal (RBal.red hr hx)
        obtain ⟨c2, hplug⟩ := ctxBal_plug hup2 hrot (fun _ => rfl)
        obtain ⟨m, hm, _⟩ := balanced_setBlack hplug
        exact ⟨m, hm⟩
  | case6 d r t c d1 up l d2 r1 ih =>
    intro pc n N hctx hbal
    simp only [rb_insert_color]
    cases hctx with
    | leftR hup1 hr =>
      cases hup1 with
      | rightB hup2 hu =>
        obtain ⟨_, hl, hr1⟩ := balanced_red_inv hu
        exact ih hup2 (RBal.red (RBal.black hl hr1) (RBal.black hbal hr))
  | case7 d r t c d1 up x hexcl =>
    intro pc n N hctx hbal
    cases hctx with
    | leftR hup1 hr =>
      cases hup1 with
      | rightB hup2 hu =>
        have hx : RBal x Color.black n := by
          cases hu with
          | nil => exact RBal.nil
          | red h1 h2 => exact (hexcl _ _ _ rfl).elim
          | black h1 h2 => exact RBal.black h1 h2
        cases hbal with
        | red htl htr =>
          simp only [rb_insert_color, rb_rotate_right, setBlack, rb_rotate_left]
          obtain ⟨c2, hplug⟩ := ctxBal_plug hup2
            (RBal.black (RBal.red hx htl) (RBal.red htr hr)) (fun _ => rfl)
          obtain ⟨m, hm, _⟩ := balanced_setBlack hplug
          exact ⟨m, hm⟩
  | case8 d l up t =>
    intro pc n N hctx hbal
    simp only [rb_insert_color]
    cases hctx with
    | rightB hup hl =>
      obtain ⟨c2, hplug⟩ := ctxBal_plug hup (RBal.black hl hbal) (fun _ => rfl)
      obtain ⟨m, hm, _⟩ := balanced_setBlack hplug
      exact ⟨m, hm⟩
  | case9 d l t =>
    intro pc n N hctx hbal
    simp only [rb_insert_color]
    cases hctx with
    | rightR hup hl => exact ⟨n + 1, by simpa [setBlack] using RBal.black hl hbal⟩
  | case10 d l t c d1 up l1 d2 r ih =>
    intro pc n N hctx hbal
    simp only [rb_insert_color]
    cases hctx with
    | rightR hup1 hl =>
      cases hup1 with
      | leftB hup2 hu =>
        obtain ⟨_, hl1, hr1⟩ := balanced_red_inv hu
        exact ih hup2 (RBal.red (RBal.black hl hbal) (RBal.black hl1 hr1))
  | case11 d l t c d1 up x hexcl =>
    intro pc n N hctx hbal
    cases hctx with
    | rightR hup1 hl =>
      cases hup1 with
      | leftB hup2 hu =>
        have hx : RBal x Color.black n := by
          cases hu with
          | nil => exact RBal.nil
          | red h1 h2 => exact (hexcl _ _ _ rfl).elim
          | black h1 h2 => exact RBal.black h1 h2
        cases hbal with
        | red htl htr =>
          simp only [rb_insert_color, rb_rotate_left, setBlack, rb_rotate_right]
          obtain ⟨c2, hplug⟩ := ctxBal_plug hup2
            (RBal.black (RBal.red hl htl) (RBal.red htr hx)) (fun _ => rfl)
          obtain ⟨m, hm, _⟩ := balanced_setBlack hplug
          exact ⟨m, hm⟩
  | case12 d l t c d1 up l1 d2 r ih =>
    intro pc n N hctx hbal
    simp only [rb_insert_color]
    cases hctx with
    | rightR hup1 hl =>
      cases hup1 with
      | rightB hup2 hu =>
        obtain ⟨_, hl1, hr1⟩ := balanced_red_inv hu
        exact ih hup2 (RBal.red (RBal.black hl1 hr1) (RBal.black hl hbal))
  | case13 d l t c d1 up x hexcl =>
    intro pc n N hctx hbal
    simp only [rb_insert_color]
    cases hctx with
    | rightR hup1 hl =>
      cases hup1 with
      | rightB hup2 hu =>
        have hx : RBal x Color.black n := by
          cases hu with
          | nil => exact RBal.nil
          | red h1 h2 => exact (hexcl _ _ _ rfl).elim
          | black h1 h2 => exact RBal.black h1 h2
        have hrot : RBal (rb_rotate_left (RbTree.node Color.red x d1
            (RbTree.node Color.black l d t))) Color.black (n + 1) := by
          simp only [rb_rotate_left]
          exact RBal.black (RBal.red hx hl) hbal
        obtain ⟨c2, hplug⟩ := ctxBal_plug hup2 hrot (fun _ => rfl)
        obtain ⟨m, hm, _⟩ := balanced_setBlack hplug
        exact ⟨m, hm⟩

lemma descend_plug (x : LydNode) : ∀ (t : RbTree) (p : RbPath),
    plug (rb_descend t x p) RbTree.nil = plug p t := by
  intro t
  induction t with
  | nil => intro p; simp [rb_descend]
  | node c l d r ihl ihr =>
    intro p
    by_cases h : rb_compare d x > 0
    · rw [rb_descend, if_pos h, ihl]; rfl
    · rw [rb_descend, if_neg h, ihr]; rfl

lemma rb_insert_node_balanced {t : RbTree} {c : Color} {N : Nat} (h : RBal t c N)
    (x : LydNode) : ∃ N2, RBal (rb_insert_node t x) Color.black N2 := by
  have hplug : plug (rb_descend t x RbPath.root) RbTree.nil = t := descend_plug x t RbPath.root
  obtain ⟨pc, n, cu, hctx, hnil, _⟩ := plug_decomp _ _ (hplug ▸ h)
  obtain ⟨hcu, hn⟩ := balanced_nil_inv hnil
  subst hn
  exact rb_insert_color_balanced _ _ hctx (RBal.red RBal.nil RBal.nil)

lemma isRed_iff {t : RbTree} : isRed t = true ↔ rootColor t = Color.red := by
  match t with
  | RbTree.nil => simp [isRed, rootColor]
  | RbTree.node c l d r => cases c <;> simp [isRed, rootColor]

lemma rootColor_black_of_not_red {t : RbTree} (h : isRed t = false) :
    rootColor t = Color.black := by
  cases hcr : rootColor t
  · exact absurd (isRed_iff.mpr hcr) (by simp [h])
  · rfl

lemma isRed_false_of_rootColor_black {t : RbTree} (h : rootColor t = Color.black) :
    isRed t = false := by
  cases hh : isRed t
  · rfl
  · rw [isRed_iff] at hh
    rw [hh] at h
    cases h

lemma checks_of_rbal : ∀ {t : RbTree} {c : Color} {n : Nat}, RBal t c n →
    noRedRed t = true ∧ blackH t = some n := by
  intro t c n h
  induction h with
  | nil => exact ⟨rfl, rfl⟩
  | red hl hr ihl ihr =>
    refine ⟨?_, ?_⟩
    · have hrl := isRed_false_of_rootColor_black (by rw [balanced_rootColor hl])
      have hrr := isRed_false_of_rootColor_black (by rw [balanced_rootColor hr])
      simp [noRedRed, ihl.1, ihr.1, hrl, hrr]
    · simp [blackH, ihl.2, ihr.2]
  | black hl hr ihl ihr =>
    refine ⟨by simp [noRedRed, ihl.1, ihr.1], by simp [blackH, ihl.2, ihr.2]⟩

lemma rbal_of_checks : ∀ (t : RbTree) (n : Nat), noRedRed t = true → blackH t = some n →
    RBal t (rootColor t) n := by
  intro t
  induction t with
  | nil =>
    intro n _ h2
    obtain rfl : (0 : Nat) = n := by simpa [blackH] using h2
    exact RBal.nil
  | node c l d r ihl ihr =>
    intro n h1 h2
    rw [noRedRed, Bool.and_eq_true, Bool.and_eq_true] at h1
    obtain ⟨⟨hc, hnl⟩, hnr⟩ := h1
    rw [blackH] at h2
    match hbl : blackH l, hbr : blackH r with
    | some m1, some m2 =>
      rw [hbl, hbr] at h2
      by_cases hm : m1 = m2
      · subst hm
        have hn2 : m1 + (if c = Color.black then 1 else 0) = n := by
          simpa using h2
        have hL := ihl m1 hnl hbl
        have hR := ihr m1 hnr hbr
        cases c with
        | red =>
          have hcc : (isRed l = false) ∧ (isRed r = false) := by
            simpa using hc
          rw [rootColor_black_of_not_red hcc.1] at hL
          rw [rootColor_black_of_not_red hcc.2] at hR
          obtain rfl : m1 = n := by simpa using hn2
          simpa using RBal.red hL hR
        | black =>
          obtain rfl : m1 + 1 = n := by simpa using hn2
          exact RBal.black hL hR
      · exfalso
        simp [hm] at h2
    | some m1, none =>
      rw [hbl, hbr] at h2
      simp at h2
    | none, _ =>
      rw [hbl] at h2
      simp at h2

lemma rbValid_iff {t : RbTree} : rbValid t ↔ ∃ n, RBal t Color.black n := by
  constructor
  · rintro ⟨h1, h2, h3⟩
    obtain ⟨n, hn⟩ := Option.isSome_iff_exists.mp h3
    have hb := rbal_of_checks t n h2 hn
    have h1f : isRed t = false := by simpa [rootBlack] using h1
    rw [rootColor_black_of_not_red h1f] at hb
    exact ⟨n, hb⟩
  · rintro ⟨n, h⟩
    obtain ⟨h1, h2⟩ := checks_of_rbal h
    refine ⟨?_, h1, by rw [h2]; rfl⟩
    have hf : isRed t = false := isRed_false_of_rootColor_black (by
      rw [balanced_rootColor h])
    simp [rootBlack, hf]

lemma isRed_shape {t : RbTree} (h : isRed t = true) :
    ∃ l d r, t = RbTree.node Color.red l d r := by
  match t, h with
  | RbTree.node Color.red l d r, _ => exact ⟨l, d, r, rfl⟩

lemma pathTopColor_up_left {pc : Color} {pd : LydNode} {sib : RbTree} {pp : RbPath}
    (h : pathTopColor (RbPath.leftOf pc pd sib pp) = Color.black) :
    pathTopColor pp = Color.black := by
  by_cases hr : pp = RbPath.root
  · subst hr; rfl
  · rwa [pathTopColor_leftOf, if_neg hr] at h

lemma pathTopColor_up_right {pc : Color} {pd : LydNode} {sib : RbTree} {pp : RbPath}
    (h : pathTopColor (RbPath.rightOf pc pd sib pp) = Color.black) :
    pathTopColor pp = Color.black := by
  by_cases hr : pp = RbPath.root
  · subst hr; rfl
  · rwa [pathTopColor_rightOf, if_neg hr] at h

lemma cl_black_of_not_red {l : RbTree} {cl : Color} {n : Nat} (hb : RBal l cl n)
    (h : isRed l = false) : cl = Color.black := by
  rw [← balanced_rootColor hb]
  exact rootColor_black_of_not_red h

/-- Plug a subtree that exactly fits the hole of a black-topped balanced
context and blacken the root: the result is a black-rooted balanced tree. -/
lemma plug_fit_black {p : RbPath} {pc : Color} {m N : Nat} {u : RbTree} {cu : Color}
    (htop : pathTopColor p = Color.black) (hctx : CtxBal p pc m N)
    (hu : RBal u cu m) (hcompat : pc = Color.red → cu = Color.black)
    (hroot : p = RbPath.root → cu = Color.black) :
    ∃ N2, RBal (plug p u) Color.black N2 := by
  obtain ⟨c2, hc2⟩ := ctxBal_plug hctx hu hcompat
  match p with
  | RbPath.root =>
    refine ⟨N, bal_black_of_rootColor hc2 ?_⟩
    show rootColor u = Color.black
    rw [balanced_rootColor hu, hroot rfl]
  | RbPath.leftOf a b c d =>
    refine ⟨N, bal_black_of_rootColor hc2 ?_⟩
    rw [rootColor_plug _ _ (by simp), htop]
  | RbPath.rightOf a b c d =>
    refine ⟨N, bal_black_of_rootColor hc2 ?_⟩
    rw [rootColor_plug _ _ (by simp), htop]


lemma rb_remove_color_balanced : ∀ (p : RbPath) (t : RbTree),
    ∀ {pc : Color} {m N : Nat}, pathTopColor p = Color.black → CtxBal p pc m N →
    Hfit t m → ∃ N2, RBal (rb_remove_color p t) Color.black N2 := by
  refine rb_remove_color.induct
    (fun p t => ∀ {pc : Color} {m N : Nat}, pathTopColor p = Color.black →
      CtxBal p pc m N → Hfit t m →
      ∃ N2, RBal (rb_remove_color p t) Color.black N2)
    (fun pc pd sib pp t => ∀ {pc2 : Color} {n N : Nat},
      (pc = Color.black → isRed sib = false) →
      pathTopColor (RbPath.rightOf pc pd sib pp) = Color.black →
      CtxBal (RbPath.rightOf pc pd sib pp) pc2 (n + 1) N → RBal t Color.black n →
      ∃ N2, RBal (rb_rc_right pc pd sib pp t) Color.black N2)
    (fun pc pd sib pp t => ∀ {pc2 : Color} {n N : Nat},
      (pc = Color.black → isRed sib = false) →
      pathTopColor (RbPath.leftOf pc pd sib pp) = Color.black →
      CtxBal (RbPath.leftOf pc pd sib pp) pc2 (n + 1) N → RBal t Color.black n →
      ∃ N2, RBal (rb_rc_left pc pd sib pp t) Color.black N2)
    ?A1 ?A2 ?A3 ?A4 ?A5 ?A6 ?A7 ?B1 ?B2 ?B3 ?B4 ?C1 ?C2 ?C3 ?C4
  case A1 =>
    intro t pc m N htop hctx hfit
    simp only [rb_remove_color]
    rcases hfit with ⟨_, c, n, hbal, rfl⟩ | ⟨_, hbal⟩
    · obtain ⟨m2, hm2, _⟩ := balanced_setBlack hbal
      exact ⟨m2, hm2⟩
    · exact ⟨m, hbal⟩
  case A2 =>
    intro t c d r up hred pc m N htop hctx hfit
    rw [rb_remove_color.eq_def]
    simp only [hred, if_true]
    rcases hfit with ⟨hf, _⟩ | ⟨_, hbal⟩
    · rw [hred] at hf; cases hf
    · exact plug_fit_black htop hctx hbal (fun _ => rfl) (fun h => nomatch h)
  case A3 =>
    intro t c d up hred l d1 r ih pc m N htop hctx hfit
    rw [rb_remove_color.eq_def]
    simp only [hred, if_false]
    rcases hfit with ⟨hf, ct, n, hbal, rfl⟩ | ⟨hf, _⟩
    swap
    · rw [hf] at hred; exact absurd rfl hred
    · have hct : ct = Color.black := cl_black_of_not_red hbal hf
      subst hct
      cases hctx with
      | leftB hup hsib =>
        obtain ⟨_, hl, hr⟩ := balanced_red_inv hsib
        have hctx2 : CtxBal (RbPath.leftOf Color.red d l (RbPath.leftOf Color.black d1 r up))
            Color.red (n + 1) N := CtxBal.leftR (CtxBal.leftB hup hr) hl
        have htop2 : pathTopColor (RbPath.leftOf Color.red d l
            (RbPath.leftOf Color.black d1 r up)) = Color.black := by
          rw [pathTopColor_leftOf, if_neg (by simp), pathTopColor_leftOf]
          by_cases hu : up = RbPath.root
          · rw [if_pos hu]
          · rw [if_neg hu]
            exact pathTopColor_up_left htop
        exact ih (fun h => nomatch h) htop2 hctx2 hbal
      | leftR hup hsib => cases hsib
  case A4 =>
    intro t c d up hred x hexcl ih pc m N htop hctx hfit
    rw [rb_remove_color.eq_def]
    rcases hfit with ⟨hf, ct, n, hbal, rfl⟩ | ⟨hf, _⟩
    swap
    · rw [hf] at hred; exact absurd rfl hred
    · have hct : ct = Color.black := cl_black_of_not_red hbal hf
      subst hct
      rcases x with _ | ⟨cx, xl, xd, xr⟩
      · simp only [hred, if_false]
        exact ih (fun _ => rfl) htop hctx hbal
      · cases cx
        · exact (hexcl _ _ _ rfl).elim
        · simp only [hred, if_false]
          exact ih (fun _ => rfl) htop hctx hbal
  case A5 =>
    intro t c d l up hred pc m N htop hctx hfit
    rw [rb_remove_color.eq_def]
    simp only [hred, if_true]
    rcases hfit with ⟨hf, _⟩ | ⟨_, hbal⟩
    · rw [hred] at hf; cases hf
    · exact plug_fit_black htop hctx hbal (fun _ => rfl) (fun h => nomatch h)
  case A6 =>
    intro t c d up hred l d1 r ih pc m N htop hctx hfit
    rw [rb_remove_color.eq_def]
    simp only [hred, if_false]
    rcases hfit with ⟨hf, ct, n, hbal, rfl⟩ | ⟨hf, _⟩
    swap
    · rw [hf] at hred; exact absurd rfl hred
    · have hct : ct = Color.black := cl_black_of_not_red hbal hf
      subst hct
      cases hctx with
      | rightB hup hsib =>
        obtain ⟨_, hl, hr⟩ := balanced_red_inv hsib
        have hctx2 : CtxBal (RbPath.rightOf Color.red d r (RbPath.rightOf Color.black d1 l up))
            Color.red (n + 1) N := CtxBal.rightR (CtxBal.rightB hup hl) hr
        have htop2 : pathTopColor (RbPath.rightOf Color.red d r
            (RbPath.rightOf Color.black d1 l up)) = Color.black := by
          rw [pathTopColor_rightOf, if_neg (by simp), pathTopColor_rightOf]
          by_cases hu : up = RbPath.root
          · rw [if_pos hu]
          · rw [if_neg hu]
            exact pathTopColor_up_right htop
        exact ih (fun h => nomatch h) htop2 hctx2 hbal
      | rightR hup hsib => cases hsib
  case A7 =>
    intro t c d up hred x hexcl ih pc m N htop hctx hfit
    rw [rb_remove_color.eq_def]
    rcases hfit with ⟨hf, ct, n, hbal, rfl⟩ | ⟨hf, _⟩
    swap
    · rw [hf] at hred; exact absurd rfl hred
    · have hct : ct = Color.black := cl_black_of_not_red hbal hf
      subst hct
      rcases x with _ | ⟨cx, xl, xd, xr⟩
      · simp only [hred, if_false]
        exact ih (fun _ => rfl) htop hctx hbal
      · cases cx
        · exact (hexcl _ _ _ rfl).elim
        · simp only [hred, if_false]
          exact ih (fun _ => rfl) htop hctx hbal
  case B1 =>
    intro pc pd pp t pc2 n N hsibh htop hctx hbal
    exfalso
    cases hctx with
    | rightB hup hsib =>
      obtain ⟨_, h0⟩ := balanced_nil_inv hsib
      omega
    | rightR hup hsib =>
      obtain ⟨_, h0⟩ := balanced_nil_inv hsib
      omega
  case B2 =>
    intro pc pd pp t c l d r hcond ih pc2 n N hsibh htop hctx hbal
    rw [rb_rc_right.eq_def]
    simp only [hcond, if_true]
    have hcl : isRed l = false ∧ isRed r = false := by
      have h2 := hcond
      simp only [Bool.and_eq_true, Bool.not_eq_true'] at h2
      exact h2
    have htop2 : pathTopColor pp = Color.black := pathTopColor_up_right htop
    cases hctx with
    | rightB hup hsib =>
      have hcb : c = Color.black := by
        have h2 := hsibh rfl
        cases c
        · simp [isRed] at h2
        · rfl
      subst hcb
      obtain ⟨_, cl2, cr2, m2, hm2, hl, hr⟩ := balanced_black_inv hsib
      obtain rfl : n = m2 := by omega
      have hl2 : RBal l Color.black n := by
        rw [cl_black_of_not_red hl hcl.1] at hl; exact hl
      have hr2 : RBal r Color.black n := by
        rw [cl_black_of_not_red hr hcl.2] at hr; exact hr
      exact ih htop2 hup (Or.inl ⟨rfl, Color.black, n + 1,
        RBal.black (RBal.red hl2 hr2) hbal, rfl⟩)
    | rightR hup hsib =>
      have hcb : c = Color.black := balanced_rootColor hsib
      subst hcb
      obtain ⟨_, cl2, cr2, m2, hm2, hl, hr⟩ := balanced_black_inv hsib
      obtain rfl : n = m2 := by omega
      have hl2 : RBal l Color.black n := by
        rw [cl_black_of_not_red hl hcl.1] at hl; exact hl
      have hr2 : RBal r Color.black n := by
        rw [cl_black_of_not_red hr hcl.2] at hr; exact hr
      exact ih htop2 hup (Or.inr ⟨rfl, RBal.black (RBal.red hl2 hr2) hbal⟩)
  case B3 =>
    intro pc pd pp t c l d r hcond c1 l2 d2 r2 heq pc2 n N hsibh htop hctx hbal
    rw [rb_rc_right.eq_def]
    simp only [hcond, if_false]
    cases hctx with
    | rightB hup hsib =>
      have hcb : c = Color.black := by
        have h2 := hsibh rfl
        cases c
        · simp [isRed] at h2
        · rfl
      subst hcb
      obtain ⟨_, cl2, cr2, m2, hm2, hl, hr⟩ := balanced_black_inv hsib
      obtain rfl : n = m2 := by omega
      by_cases hll : isRed l = true
      · obtain ⟨la, ld, lb, rfl⟩ := isRed_shape hll
        obtain ⟨_, hla, hlb⟩ := balanced_red_inv hl
        simp only [hll, Bool.not_true, if_false, setBlack, rb_rotate_right]
        obtain ⟨c3, hc3⟩ := ctxBal_plug hup
          (RBal.black (RBal.black hla hlb) (RBal.black hr hbal)) (fun _ => rfl)
        obtain ⟨m3, hm3, _⟩ := balanced_setBlack hc3
        exact ⟨m3, hm3⟩
      · have hll2 : isRed l = false := by simpa using hll
        have hrr : isRed r = true := by
          cases hxx : isRed r
          · exact absurd (by simp [hxx, hll2]) hcond
          · rfl
        obtain ⟨ra, rd, rb, rfl⟩ := isRed_shape hrr
        obtain ⟨_, hra, hrb⟩ := balanced_red_inv hr
        have hl2 : RBal l Color.black n := by
          rw [cl_black_of_not_red hl hll2] at hl; exact hl
        simp only [hll2, Bool.not_false, if_true, setBlack, rb_rotate_left, rb_rotate_right]
        obtain ⟨c3, hc3⟩ := ctxBal_plug hup
          (RBal.black (RBal.black hl2 hra) (RBal.black hrb hbal)) (fun _ => rfl)
        obtain ⟨m3, hm3, _⟩ := balanced_setBlack hc3
        exact ⟨m3, hm3⟩
    | rightR hup hsib =>
      have hcb : c = Color.black := balanced_rootColor hsib
      subst hcb
      obtain ⟨_, cl2, cr2, m2, hm2, hl, hr⟩ := balanced_black_inv hsib
      obtain rfl : n = m2 := by omega
      by_cases hll : isRed l = true
      · obtain ⟨la, ld, lb, rfl⟩ := isRed_shape hll
        obtain ⟨_, hla, hlb⟩ := balanced_red_inv hl
        simp only [hll, Bool.not_true, if_false, setBlack, rb_rotate_right]
        obtain ⟨c3, hc3⟩ := ctxBal_plug hup
          (RBal.red (RBal.black hla hlb) (RBal.black hr hbal)) (fun h => nomatch h)
        obtain ⟨m3, hm3, _⟩ := balanced_setBlack hc3
        exact ⟨m3, hm3⟩
      · have hll2 : isRed l = false := by simpa using hll
        have hrr : isRed r = true := by
          cases hxx : isRed r
          · exact absurd (by simp [hxx, hll2]) hcond
          · rfl
        obtain ⟨ra, rd, rb, rfl⟩ := isRed_shape hrr
        obtain ⟨_, hra, hrb⟩ := balanced_red_inv hr
        have hl2 : RBal l Color.black n := by
          rw [cl_black_of_not_red hl hll2] at hl; exact hl
        simp only [hll2, Bool.not_false, if_true, setBlack, rb_rotate_left, rb_rotate_right]
        obtain ⟨c3, hc3⟩ := ctxBal_plug hup
          (RBal.red (RBal.black hl2 hra) (RBal.black hrb hbal)) (fun h => nomatch h)
        obtain ⟨m3, hm3, _⟩ := balanced_setBlack hc3
        exact ⟨m3, hm3⟩
  case B4 =>
    intro pc pd pp t c l d r hcond heq pc2 n N hsibh htop hctx hbal
    exfalso
    split at heq
    · rcases r with _ | ⟨cr0, a, b, c0⟩
      · simp [setBlack, rb_rotate_left] at heq
      · simp [setBlack, rb_rotate_left] at heq
    · simp at heq
  case C1 =>
    intro pc pd pp t pc2 n N hsibh htop hctx hbal
    exfalso
    cases hctx with
    | leftB hup hsib =>
      obtain ⟨_, h0⟩ := balanced_nil_inv hsib
      omega
    | leftR hup hsib =>
      obtain ⟨_, h0⟩ := balanced_nil_inv hsib
      omega
  case C2 =>
    intro pc pd pp t c l d r hcond ih pc2 n N hsibh htop hctx hbal
    rw [rb_rc_left.eq_def]
    simp only [hcond, if_true]
    have hcl : isRed l = false ∧ isRed r = false := by
      have h2 := hcond
      simp only [Bool.and_eq_true, Bool.not_eq_true'] at h2
      exact h2
    have htop2 : pathTopColor pp = Color.black := pathTopColor_up_left htop
    cases hctx with
    | leftB hup hsib =>
      have hcb : c = Color.black := by
        have h2 := hsibh rfl
        cases c
        · simp [isRed] at h2
        · rfl
      subst hcb
      obtain ⟨_, cl2, cr2, m2, hm2, hl, hr⟩ := balanced_black_inv hsib
      obtain rfl : n = m2 := by omega
      have hl2 : RBal l Color.black n := by
        rw [cl_black_of_not_red hl hcl.1] at hl; exact hl
      have hr2 : RBal r Color.black n := by
        rw [cl_black_of_not_red hr hcl.2] at hr; exact hr
      exact ih htop2 hup (Or.inl ⟨rfl, Color.black, n + 1,
        RBal.black hbal (RBal.red hl2 hr2), rfl⟩)
    | leftR hup hsib =>
      have hcb : c = Color.black := balanced_rootColor hsib
      subst hcb
      obtain ⟨_, cl2, cr2, m2, hm2, hl, hr⟩ := balanced_black_inv hsib
      obtain rfl : n = m2 := by omega
      have hl2 : RBal l Color.black n := by
        rw [cl_black_of_not_red hl hcl.1] at hl; exact hl
      have hr2 : RBal r Color.black n := by
        rw [cl_black_of_not_red hr hcl.2] at hr; exact hr
      exact ih htop2 hup (Or.inr ⟨rfl, RBal.black hbal (RBal.red hl2 hr2)⟩)
  case C3 =>
    intro pc pd pp t c l d r hcond c1 l2 d2 r2 heq pc2 n N hsibh htop hctx hbal
    rw [rb_rc_left.eq_def]
    simp only [hcond, if_false]
    cases hctx with
    | leftB hup hsib =>
      have hcb : c = Color.black := by
        have h2 := hsibh rfl
        cases c
        · simp [isRed] at h2
        · rfl
      subst hcb
      obtain ⟨_, cl2, cr2, m2, hm2, hl, hr⟩ := balanced_black_inv hsib
      obtain rfl : n = m2 := by omega
      by_cases hrr : isRed r = true
      · obtain ⟨ra, rd, rb, rfl⟩ := isRed_shape hrr
        obtain ⟨_, hra, hrb⟩ := balanced_red_inv hr
        simp only [hrr, Bool.not_true, if_false, setBlack, rb_rotate_left]
        obtain ⟨c3, hc3⟩ := ctxBal_plug hup
          (RBal.black (RBal.black hbal hl) (RBal.black hra hrb)) (fun _ => rfl)
        obtain ⟨m3, hm3, _⟩ := balanced_setBlack hc3
        exact ⟨m3, hm3⟩
      · have hrr2 : isRed r = false := by simpa using hrr
        have hll : isRed l = true := by
          cases hxx : isRed l
          · exact absurd (by simp [hxx, hrr2]) hcond
          · rfl
        obtain ⟨la, ld, lb, rfl⟩ := isRed_shape hll
        obtain ⟨_, hla, hlb⟩ := balanced_red_inv hl
        have hr2 : RBal r Color.black n := by
          rw [cl_black_of_not_red hr hrr2] at hr; exact hr
        simp only [hrr2, Bool.not_false, if_true, setBlack, rb_rotate_right, rb_rotate_left]
        obtain ⟨c3, hc3⟩ := ctxBal_plug hup
          (RBal.black (RBal.black hbal hla) (RBal.black hlb hr2)) (fun _ => rfl)
        obtain ⟨m3, hm3, _⟩ := balanced_setBlack hc3
        exact ⟨m3, hm3⟩
    | leftR hup hsib =>
      have hcb : c = Color.black := balanced_rootColor hsib
      subst hcb
      obtain ⟨_, cl2, cr2, m2, hm2, hl, hr⟩ := balanced_black_inv hsib
      obtain rfl : n = m2 := by omega
      by_cases hrr : isRed r = true
      · obtain ⟨ra, rd, rb, rfl⟩ := isRed_shape hrr
        obtain ⟨_, hra, hrb⟩ := balanced_red_inv hr
        simp only [hrr, Bool.not_true, if_false, setBlack, rb_rotate_left]
        obtain ⟨c3, hc3⟩ := ctxBal_plug hup
          (RBal.red (RBal.black hbal hl) (RBal.black hra hrb)) (fun h => nomatch h)
        obtain ⟨m3, hm3, _⟩ := balanced_setBlack hc3
        exact ⟨m3, hm3⟩
      · have hrr2 : isRed r = false := by simpa using hrr
        have hll : isRed l = true := by
          cases hxx : isRed l
          · exact absurd (by simp [hxx, hrr2]) hcond
          · rfl
        obtain ⟨la, ld, lb, rfl⟩ := isRed_shape hll
        obtain ⟨_, hla, hlb⟩ := balanced_red_inv hl
        have hr2 : RBal r Color.black n := by
          rw [cl_black_of_not_red hr hrr2] at hr; exact hr
        simp only [hrr2, Bool.not_false, if_true, setBlack, rb_rotate_right, rb_rotate_left]
        obtain ⟨c3, hc3⟩ := ctxBal_plug hup
          (RBal.red (RBal.black hbal hla) (RBal.black hlb hr2)) (fun h => nomatch h)
        obtain ⟨m3, hm3, _⟩ := balanced_setBlack hc3
        exact ⟨m3, hm3⟩
  case C4 =>
    intro pc pd pp t c l d r hcond heq pc2 n N hsibh htop hctx hbal
    exfalso
    split at heq
    · rcases l with _ | ⟨cl0, a, b, c0⟩
      · simp [setBlack, rb_rotate_right] at heq
      · simp [setBlack, rb_rotate_right] at heq
    · simp at heq

lemma pathApp_assoc : ∀ (q Q P : RbPath),
    pathApp (pathApp q Q) P = pathApp q (pathApp Q P) := by
  intro q Q P
  induction q with
  | root => rfl
  | leftOf c d r up ih => simp [pathApp, ih]
  | rightOf c d l up ih => simp [pathApp, ih]

lemma pathApp_ne_root {P : RbPath} (h : P ≠ RbPath.root) :
    ∀ q : RbPath, pathApp q P ≠ RbPath.root := by
  intro q
  cases q with
  | root => exact h
  | leftOf c d r up => simp [pathApp]
  | rightOf c d l up => simp [pathApp]

lemma pathTopColor_pathApp : ∀ (q : RbPath) {P : RbPath}, P ≠ RbPath.root →
    pathTopColor (pathApp q P) = pathTopColor P := by
  intro q
  induction q with
  | root => intro P _; rfl
  | leftOf c d r up ih =>
    intro P hP
    rw [show pathApp (RbPath.leftOf c d r up) P =
          RbPath.leftOf c d r (pathApp up P) from rfl,
        pathTopColor_leftOf, if_neg (pathApp_ne_root hP up)]
    exact ih hP
  | rightOf c d l up ih =>
    intro P hP
    rw [show pathApp (RbPath.rightOf c d l up) P =
          RbPath.rightOf c d l (pathApp up P) from rfl,
        pathTopColor_rightOf, if_neg (pathApp_ne_root hP up)]
    exact ih hP

lemma plug_pathApp : ∀ (q Q : RbPath) (t : RbTree),
    plug (pathApp q Q) t = plug Q (plug q t) := by
  intro q
  induction q with
  | root => intro Q t; rfl
  | leftOf c d r up ih => intro Q t; exact ih Q (RbTree.node c t d r)
  | rightOf c d l up ih => intro Q t; exact ih Q (RbTree.node c l d t)

/-- A balanced subtree of black-height 0 fits a hole of black-height 1 in
the sense of the deletion fix-up precondition. -/
lemma hfit_one {r : RbTree} {cr : Color} (h : RBal r cr 0) : Hfit r 1 := by
  by_cases hr : isRed r = true
  · obtain ⟨a, d, b, rfl⟩ := isRed_shape hr
    obtain ⟨_, ha, hb⟩ := balanced_red_inv h
    exact Or.inr ⟨rfl, RBal.black ha hb⟩
  · have hr2 : isRed r = false := by simpa using hr
    rw [cl_black_of_not_red h hr2] at h
    exact Or.inl ⟨hr2, Color.black, 0, h, rfl⟩

/-- Specification of the successor splice: on a nonempty balanced subtree it
returns the leftmost data, its node's color, its right child, and a context
such that the detached node plugs back to the original subtree; moreover any
balanced context for the subtree's root extends along the returned context to
a balanced context for the detached position. -/
lemma rb_splice_min_spec : ∀ (R : RbTree) {cR : Color} {nR : Nat},
    RBal R cR nR → R ≠ RbTree.nil →
    ∃ d sc rest q nh,
      rb_splice_min R = (d, sc, rest, q) ∧
      RBal (RbTree.node sc RbTree.nil d rest) sc nh ∧
      plug q (RbTree.node sc RbTree.nil d rest) = R ∧
      (∀ {P : RbPath} {pc0 : Color} {N : Nat}, CtxBal P pc0 nR N →
        (cR = Color.red → pc0 = Color.black) →
        ∃ pcx, CtxBal (pathApp q P) pcx nh N) := by
  intro R
  induction R with
  | nil => intro cR nR _ hne; exact absurd rfl hne
  | node c L d r ihL ihr =>
    intro cR nR hbal hne
    cases L with
    | nil =>
      have hc : c = cR := balanced_rootColor hbal
      subst hc
      exact ⟨d, c, r, RbPath.root, nR, rfl, hbal, rfl,
        fun hctxP _ => ⟨_, hctxP⟩⟩
    | node lc ll ld lr =>
      cases c with
      | black =>
        obtain ⟨hcR, cl, cr2, m2, hm2, hL, hr⟩ := balanced_black_inv hbal
        subst hcR
        obtain ⟨d0, sc, rest, q, nh, hspl, hmin, hplugL, htrans⟩ :=
          ihL hL (by simp)
        refine ⟨d0, sc, rest,
          pathApp q (RbPath.leftOf Color.black d r RbPath.root), nh,
          by simp [rb_splice_min, hspl], hmin, ?_, ?_⟩
        · rw [plug_pathApp, hplugL]
          rfl
        · intro P pc0 N hctxP _
          have hctx2 : CtxBal (RbPath.leftOf Color.black d r P) Color.black m2 N :=
            CtxBal.leftB (hm2 ▸ hctxP) hr
          obtain ⟨pcx, hpcx⟩ := htrans hctx2 (fun _ => rfl)
          refine ⟨pcx, ?_⟩
          rw [pathApp_assoc]
          exact hpcx
      | red =>
        obtain ⟨hcR, hL, hr⟩ := balanced_red_inv hbal
        subst hcR
        obtain ⟨d0, sc, rest, q, nh, hspl, hmin, hplugL, htrans⟩ :=
          ihL hL (by simp)
        refine ⟨d0, sc, rest,
          pathApp q (RbPath.leftOf Color.red d r RbPath.root), nh,
          by simp [rb_splice_min, hspl], hmin, ?_, ?_⟩
        · rw [plug_pathApp, hplugL]
          rfl
        · intro P pc0 N hctxP hcomp
          rw [hcomp rfl] at hctxP
          have hctx2 : CtxBal (RbPath.leftOf Color.red d r P) Color.red nR N :=
            CtxBal.leftR hctxP hr
          obtain ⟨pcx, hpcx⟩ := htrans hctx2 (fun h => nomatch h)
          refine ⟨pcx, ?_⟩
          rw [pathApp_assoc]
          exact hpcx

/-- `rb_remove` (as `rb_remove_at`) preserves the balance invariant: removing
a nonempty node sitting at a valid black-topped context yields a balanced
black-rooted tree. -/
lemma rb_remove_at_balanced {p : RbPath} {u : RbTree} {pc cu : Color} {m N : Nat}
    (htop : pathTopColor p = Color.black)
    (hctx : CtxBal p pc m N) (hbal : RBal u cu m)
    (hcompat : pc = Color.red → cu = Color.black)
    (hroot : p = RbPath.root → cu = Color.black)
    (hne : u ≠ RbTree.nil) :
    ∃ N2, RBal (rb_remove_at p u) Color.black N2 := by
  match u, hne with
  | RbTree.node c RbTree.nil d r, _ =>
    cases c with
    | black =>
      obtain ⟨hcu, cl, cr2, m2, hm2, hl, hr⟩ := balanced_black_inv hbal
      obtain ⟨_, h0⟩ := balanced_nil_inv hl
      subst h0
      simp only [rb_remove_at, if_pos rfl]
      exact rb_remove_color_balanced p r htop (hm2 ▸ hctx) (hfit_one hr)
    | red =>
      obtain ⟨hcu, hl, hr⟩ := balanced_red_inv hbal
      obtain ⟨_, h0⟩ := balanced_nil_inv hl
      subst h0
      simp only [rb_remove_at]
      exact plug_fit_black htop hctx hr (fun _ => rfl) (fun _ => rfl)
  | RbTree.node c (RbTree.node lc ll ld lr) d RbTree.nil, _ =>
    cases c with
    | black =>
      obtain ⟨hcu, cl, cr2, m2, hm2, hl, hr⟩ := balanced_black_inv hbal
      obtain ⟨_, h0⟩ := balanced_nil_inv hr
      subst h0
      simp only [rb_remove_at, if_pos rfl]
      exact rb_remove_color_balanced p _ htop (hm2 ▸ hctx) (hfit_one hl)
    | red =>
      obtain ⟨hcu, hl, hr⟩ := balanced_red_inv hbal
      obtain ⟨_, h0⟩ := balanced_nil_inv hr
      subst h0
      simp only [rb_remove_at]
      exact plug_fit_black htop hctx hl (fun _ => rfl) (fun _ => rfl)
  | RbTree.node c (RbTree.node lc ll ld lr) d (RbTree.node rc rl rd2 rr), _ =>
    cases c with
    | black =>
      obtain ⟨hcu, cl, cr2, m2, hm2, hl, hr⟩ := balanced_black_inv hbal
      obtain ⟨d0, sc, rest, q, nh, hspl, hmin, hplugR, htrans⟩ :=
        rb_splice_min_spec _ hr (by simp)
      obtain ⟨pcx, hctx2⟩ := htrans
        (CtxBal.rightB (hm2 ▸ hctx) hl) (fun _ => rfl)
      have htop2 : pathTopColor
          (pathApp q (RbPath.rightOf Color.black d0 (RbTree.node lc ll ld lr) p)) =
          Color.black := by
        rw [pathTopColor_pathApp q (by simp), pathTopColor_rightOf]
        by_cases hp : p = RbPath.root
        · rw [if_pos hp]
        · rw [if_neg hp]; exact htop
      simp only [rb_remove_at, hspl]
      by_cases hsc : sc = Color.black
      · subst hsc
        obtain ⟨_, cl3, cr3, m3, hm3, hn, hrest⟩ := balanced_black_inv hmin
        obtain ⟨_, h0⟩ := balanced_nil_inv hn
        subst h0
        rw [if_pos rfl]
        exact rb_remove_color_balanced _ _ htop2 (hm3 ▸ hctx2) (hfit_one hrest)
      · have hscr : sc = Color.red := by
          cases sc with
          | red => rfl
          | black => exact absurd rfl hsc
        subst hscr
        obtain ⟨_, hn, hrest⟩ := balanced_red_inv hmin
        obtain ⟨_, h0⟩ := balanced_nil_inv hn
        subst h0
        rw [if_neg (by simp)]
        exact plug_fit_black htop2 hctx2 hrest (fun _ => rfl) (fun _ => rfl)
    | red =>
      obtain ⟨hcu, hl, hr⟩ := balanced_red_inv hbal
      subst hcu
      have hpne : p ≠ RbPath.root := fun h => nomatch hroot h
      have hpc : pc = Color.black := by
        cases pc
        · exact nomatch hcompat rfl
        · rfl
      subst hpc
      obtain ⟨d0, sc, rest, q, nh, hspl, hmin, hplugR, htrans⟩ :=
        rb_splice_min_spec _ hr (by simp)
      obtain ⟨pcx, hctx2⟩ := htrans
        (CtxBal.rightR hctx hl) (fun h => nomatch h)
      have htop2 : pathTopColor
          (pathApp q (RbPath.rightOf Color.red d0 (RbTree.node lc ll ld lr) p)) =
          Color.black := by
        rw [pathTopColor_pathApp q (by simp), pathTopColor_rightOf, if_neg hpne]
        exact htop
      simp only [rb_remove_at, hspl]
      by_cases hsc : sc = Color.black
      · subst hsc
        obtain ⟨_, cl3, cr3, m3, hm3, hn, hrest⟩ := balanced_black_inv hmin
        obtain ⟨_, h0⟩ := balanced_nil_inv hn
        subst h0
        rw [if_pos rfl]
        exact rb_remove_color_balanced _ _ htop2 (hm3 ▸ hctx2) (hfit_one hrest)
      · have hscr : sc = Color.red := by
          cases sc with
          | red => rfl
          | black => exact absurd rfl hsc
        subst hscr
        obtain ⟨_, hn, hrest⟩ := balanced_red_inv hmin
        obtain ⟨_, h0⟩ := balanced_nil_inv hn
        subst h0
        rw [if_neg (by simp)]
        exact plug_fit_black htop2 hctx2 hrest (fun _ => rfl) (fun _ => rfl)

/-- **C2.** After every insert (`rb_insert_node`, which ends with
`rb_insert_color`) and every remove of a nonempty node `u` sitting at any
position `p` of the tree (`rb_remove_at`, modelling `rb_remove` followed by
`rb_remove_color`), the tree satisfies the red-black invariants: the root is
black, no red node has a red parent, and every path from the root to an empty
position passes through the same number of black nodes. -/
theorem C2_rb_invariants_insert_remove (t : RbTree) (x : LydNode)
    (p : RbPath) (u : RbTree) (hv : rbValid t) :
    rbValid (rb_insert_node t x) ∧
    (plug p u = t → u ≠ RbTree.nil → rbValid (rb_remove_at p u)) := by
  obtain ⟨n, hbal⟩ := rbValid_iff.mp hv
  constructor
  · obtain ⟨N2, h2⟩ := rb_insert_node_balanced hbal x
    exact rbValid_iff.mpr ⟨N2, h2⟩
  · intro hplug hne
    subst hplug
    obtain ⟨pc, m, cu, hctx, hu, hcompat⟩ := plug_decomp p u hbal
    have htop := pathTopColor_black_of_bal hbal
    have hroot : p = RbPath.root → cu = Color.black := by
      intro hp
      subst hp
      rw [← balanced_rootColor hu]
      exact balanced_rootColor hbal
    obtain ⟨N2, h2⟩ := rb_remove_at_balanced htop hctx hu hcompat hroot hne
    exact rbValid_iff.mpr ⟨N2, h2⟩

theorem C2_rb_invariants_insert_remove_witness :
    rbValid (rb_insert_node (RbTree.node Color.black
      (RbTree.node Color.red RbTree.nil ⟨1, 1⟩ RbTree.nil) ⟨2, 2⟩ RbTree.nil) ⟨3, 3⟩) ∧
    rbValid (rb_remove_at
      (RbPath.leftOf Color.black ⟨2, 2⟩ RbTree.nil RbPath.root)
      (RbTree.node Color.red RbTree.nil ⟨1, 1⟩ RbTree.nil)) := by
  have h := C2_rb_invariants_insert_remove
    (RbTree.node Color.black (RbTree.node Color.red RbTree.nil ⟨1, 1⟩ RbTree.nil)
      ⟨2, 2⟩ RbTree.nil) ⟨3, 3⟩
    (RbPath.leftOf Color.black ⟨2, 2⟩ RbTree.nil RbPath.root)
    (RbTree.node Color.red RbTree.nil ⟨1, 1⟩ RbTree.nil)
    ⟨rfl, rfl, rfl⟩
  exact ⟨h.1, h.2 rfl (by simp)⟩

lemma setBlack_nil : setBlack RbTree.nil = RbTree.nil := rfl

lemma setBlack_node {c : Color} {l : RbTree} {d : LydNode} {r : RbTree} :
    setBlack (RbTree.node c l d r) = RbTree.node Color.black l d r := rfl

lemma inorder_length : ∀ t : RbTree, (inorder t).length = tsize t
  | .nil => rfl
  | .node _ l _ r => by
    simp [inorder, tsize, inorder_length l, inorder_length r]
    omega

/-- The deletion fix-up only recolors and rotates: the in-order list of the
whole tree is unchanged. -/
lemma inorder_remove_color : ∀ (p : RbPath) (t : RbTree),
    inorder (rb_remove_color p t) = inorder (plug p t) := by
  refine rb_remove_color.induct
    (fun p t => inorder (rb_remove_color p t) = inorder (plug p t))
    (fun pc pd sib pp t => inorder (rb_rc_right pc pd sib pp t) =
      inorder (plug pp (RbTree.node pc sib pd t)))
    (fun pc pd sib pp t => inorder (rb_rc_left pc pd sib pp t) =
      inorder (plug pp (RbTree.node pc t pd sib)))
    ?A1 ?A2 ?A3 ?A4 ?A5 ?A6 ?A7 ?B1 ?B2 ?B3 ?B4 ?C1 ?C2 ?C3 ?C4
  case A1 =>
    intro t
    simp [rb_remove_color, inorder_setBlack, plug]
  case A2 =>
    intro t c d r up hred
    rw [rb_remove_color.eq_def]
    simp only [hred, if_true]
    simp [inorder_plug, inorder_setBlack]
  case A3 =>
    intro t c d up hred l d1 r ih
    rw [rb_remove_color.eq_def]
    simp only [hred, Bool.false_eq_true, if_false]
    rw [ih]
    simp [inorder_plug, inorder, plug]
  case A4 =>
    intro t c d up hred x hexcl ih
    rw [rb_remove_color.eq_def]
    rcases x with _ | ⟨cx, xl, xd, xr⟩
    · simp only [hred, Bool.false_eq_true, if_false]
      exact ih
    · cases cx
      · exact (hexcl _ _ _ rfl).elim
      · simp only [hred, Bool.false_eq_true, if_false]
        exact ih
  case A5 =>
    intro t c d l up hred
    rw [rb_remove_color.eq_def]
    simp only [hred, if_true]
    simp [inorder_plug, inorder_setBlack]
  case A6 =>
    intro t c d up hred l d1 r ih
    rw [rb_remove_color.eq_def]
    simp only [hred, Bool.false_eq_true, if_false]
    rw [ih]
    simp [inorder_plug, inorder, plug]
  case A7 =>
    intro t c d up hred x hexcl ih
    rw [rb_remove_color.eq_def]
    rcases x with _ | ⟨cx, xl, xd, xr⟩
    · simp only [hred, Bool.false_eq_true, if_false]
      exact ih
    · cases cx
      · exact (hexcl _ _ _ rfl).elim
      · simp only [hred, Bool.false_eq_true, if_false]
        exact ih
  case B1 =>
    intro pc pd pp t
    rw [rb_rc_right.eq_def]
    simp [plug]
  case B2 =>
    intro pc pd pp t c l d r hcond ih
    rw [rb_rc_right.eq_def]
    simp only [hcond, if_true]
    rw [ih]
    simp [inorder_plug, inorder]
  case B3 =>
    intro pc pd pp t c l d r hcond c1 l2 d2 r2 heq
    rw [rb_rc_right.eq_def]
    simp only [hcond, if_false]
    by_cases hll : isRed l = true
    · simp only [hll, Bool.not_true, if_false]
      simp [inorder_setBlack, inorder_plug, inorder_rotate_right, inorder, setBlack_nil, setBlack_node]
    · have hll2 : isRed l = false := by simpa using hll
      simp only [hll2, Bool.not_false, if_true]
      rcases r with _ | ⟨rc0, ra, rb0, rr0⟩ <;>
        simp [rb_rotate_left, setBlack_nil, setBlack_node, inorder_rotate_right,
          inorder_setBlack, inorder_plug, inorder]
  case B4 =>
    intro pc pd pp t c l d r hcond heq
    exfalso
    split at heq
    · rcases r with _ | ⟨cr0, a, b, c0⟩
      · simp [setBlack, rb_rotate_left] at heq
      · simp [setBlack, rb_rotate_left] at heq
    · simp at heq
  case C1 =>
    intro pc pd pp t
    rw [rb_rc_left.eq_def]
    simp [plug]
  case C2 =>
    intro pc pd pp t c l d r hcond ih
    rw [rb_rc_left.eq_def]
    simp only [hcond, if_true]
    rw [ih]
    simp [inorder_plug, inorder]
  case C3 =>
    intro pc pd pp t c l d r hcond c1 l2 d2 r2 heq
    rw [rb_rc_left.eq_def]
    simp only [hcond, if_false]
    by_cases hrr : isRed r = true
    · simp only [hrr, Bool.not_true, if_false]
      simp [inorder_setBlack, inorder_plug, inorder_rotate_left, inorder, setBlack_nil, setBlack_node]
    · have hrr2 : isRed r = false := by simpa using hrr
      simp only [hrr2, Bool.not_false, if_true]
      rcases l with _ | ⟨lc0, la, lb0, lr0⟩ <;>
        simp [rb_rotate_right, setBlack_nil, setBlack_node, inorder_rotate_left,
          inorder_setBlack, inorder_plug, inorder]
  case C4 =>
    intro pc pd pp t c l d r hcond heq
    exfalso
    split at heq
    · rcases l with _ | ⟨cl0, a, b, c0⟩
      · simp [setBlack, rb_rotate_right] at heq
      · simp [setBlack, rb_rotate_right] at heq
    · simp at heq

/-- The splice walks to the in-order head of the subtree: the subtree's
in-order list is the spliced datum followed by the list of the remainder. -/
lemma rb_splice_min_inorder : ∀ (R : RbTree), R ≠ RbTree.nil →
    inorder R = (rb_splice_min R).1 ::
      inorder (plug (rb_splice_min R).2.2.2 (rb_splice_min R).2.2.1) := by
  intro R
  induction R with
  | nil => intro h; exact absurd rfl h
  | node c L d r ihL ihr =>
    intro _
    cases L with
    | nil => simp [rb_splice_min, inorder, plug]
    | node lc ll ld lr =>
      have ih := ihL (by simp)
      rw [show inorder (RbTree.node c (RbTree.node lc ll ld lr) d r)
            = inorder (RbTree.node lc ll ld lr) ++ d :: inorder r from rfl, ih]
      simp only [rb_splice_min, plug_pathApp, plug, inorder]
      simp

/-- `rb_remove_at` removes exactly the in-order element at the hole: the
result's in-order list is the original one with the removed node's datum
deleted. -/
lemma inorder_remove_at (p : RbPath) (c : Color) (l : RbTree) (d : LydNode)
    (r : RbTree) :
    inorder (rb_remove_at p (RbTree.node c l d r)) =
      beforeP p ++ (inorder l ++ inorder r) ++ afterP p := by
  match l, r with
  | RbTree.nil, r =>
    simp only [rb_remove_at]
    split
    · rw [inorder_remove_color, inorder_plug]
      simp [inorder]
    · rw [inorder_plug]
      simp [inorder]
  | RbTree.node lc ll ld lr, RbTree.nil =>
    simp only [rb_remove_at]
    split
    · rw [inorder_remove_color, inorder_plug]
      simp [inorder]
    · rw [inorder_plug]
      simp [inorder]
  | RbTree.node lc ll ld lr, RbTree.node rc rl rd2 rr =>
    have hsp := rb_splice_min_inorder (RbTree.node rc rl rd2 rr) (by simp)
    simp only [rb_remove_at]
    split
    · rw [inorder_remove_color, plug_pathApp]
      simp only [plug]
      rw [inorder_plug]
      simp only [inorder]
      rw [← hsp]
      simp [inorder]
    · rw [plug_pathApp]
      simp only [plug]
      rw [inorder_plug]
      simp only [inorder]
      rw [← hsp]
      simp [inorder]

/-- The predecessor scan of `rb_find` finds the target when it lies before
the pivot with only comparator-equal foreign elements in between. -/
lemma rb_find_scan_prev_finds (x : LydNode) :
    ∀ (B : List LydNode) (fuel : Nat) (p : RbPath) (v : RbTree)
      (A : List LydNode), v ≠ RbTree.nil → B.length + 1 ≤ fuel →
      beforeP p ++ inorder (leftT v) = A ++ x :: B →
      (∀ b ∈ B, b.val = x.val ∧ b.id ≠ x.id) →
      ∃ q w, rb_find_scan_prev x fuel p v = some (q, w) ∧
        plug q w = plug p v ∧ w ≠ RbTree.nil ∧ rootD w = x := by
  intro B
  induction B using List.reverseRecOn with
  | nil =>
    intro fuel p v A hv hfuel hpre hB
    obtain ⟨f, rfl⟩ : ∃ f, fuel = f + 1 := ⟨fuel - 1, by omega⟩
    rcases v with _ | ⟨c, l, d, r⟩
    · exact absurd rfl hv
    obtain ⟨hnone, hsome⟩ := rb_prev_pos_spec p c l d r
    cases hprev : rb_prev_pos p (RbTree.node c l d r) with
    | none =>
      exfalso
      have h0 : beforeP p ++ inorder l = [] := hnone hprev
      have hpre2 : beforeP p ++ inorder l = A ++ [x] := hpre
      rw [h0] at hpre2
      simp at hpre2
    | some qw =>
      obtain ⟨q1, w1⟩ := qw
      obtain ⟨hw1, hplug1, hlist⟩ := hsome q1 w1 hprev
      have hpre2 : beforeP p ++ inorder l = A ++ [x] := hpre
      rw [hpre2] at hlist
      obtain ⟨hpre3, hlast⟩ := List.append_inj' hlist rfl
      have hx : rootD w1 = x := by simpa using hlast
      have hcmp : rb_compare (rootD w1) x = 0 := by
        rw [hx]
        simp [rb_compare]
      refine ⟨q1, w1, ?_, hplug1, hw1, hx⟩
      simp only [rb_find_scan_prev, hprev]
      rw [if_neg (by simp [hcmp]), if_pos (by rw [hx])]
  | append_singleton B' b ihB =>
    intro fuel p v A hv hfuel hpre hB
    obtain ⟨f, rfl⟩ : ∃ f, fuel = f + 1 := ⟨fuel - 1, by omega⟩
    rcases v with _ | ⟨c, l, d, r⟩
    · exact absurd rfl hv
    obtain ⟨hnone, hsome⟩ := rb_prev_pos_spec p c l d r
    cases hprev : rb_prev_pos p (RbTree.node c l d r) with
    | none =>
      exfalso
      have h0 : beforeP p ++ inorder l = [] := hnone hprev
      have hpre2 : beforeP p ++ inorder l = A ++ x :: (B' ++ [b]) := hpre
      rw [h0] at hpre2
      simp at hpre2
    | some qw =>
      obtain ⟨q1, w1⟩ := qw
      obtain ⟨hw1, hplug1, hlist⟩ := hsome q1 w1 hprev
      have hpre2 : beforeP p ++ inorder l = A ++ x :: (B' ++ [b]) := hpre
      have hrhs : A ++ x :: (B' ++ [b]) = (A ++ x :: B') ++ [b] := by simp
      rw [hpre2, hrhs] at hlist
      obtain ⟨hpre3, hlast⟩ := List.append_inj' hlist rfl
      have hb : rootD w1 = b := by simpa using hlast
      obtain ⟨hbval, hbid⟩ := hB b (by simp)
      have hcmp : rb_compare (rootD w1) x = 0 := by
        rw [hb]
        exact rb_compare_zero.mpr hbval
      have hfuel2 : B'.length + 1 ≤ f := by
        simp only [List.length_append, List.length_singleton] at hfuel
        omega
      obtain ⟨q2, w2, hscan, hplug2, hw2, hroot2⟩ :=
        ihB f q1 w1 A hw1 hfuel2 hpre3 (fun b2 hb2 => hB b2 (by simp [hb2]))
      refine ⟨q2, w2, ?_, by rw [hplug2, hplug1], hw2, hroot2⟩
      simp only [rb_find_scan_prev, hprev]
      rw [if_neg (by simp [hcmp]), if_neg (by rw [hb]; exact hbid)]
      exact hscan

/-- Soundness of the predecessor scan: any hit is an identity match among the
in-order predecessors of the pivot, at a valid position of the same tree. -/
lemma rb_find_scan_prev_sound (x : LydNode) :
    ∀ (fuel : Nat) (p : RbPath) (v : RbTree) (q : RbPath) (w : RbTree),
      rb_find_scan_prev x fuel p v = some (q, w) →
      plug q w = plug p v ∧ w ≠ RbTree.nil ∧ (rootD w).id = x.id ∧
        rootD w ∈ beforeP p ++ inorder (leftT v) := by
  intro fuel
  induction fuel with
  | zero => intro p v q w h; simp [rb_find_scan_prev] at h
  | succ f ih =>
    intro p v q w h
    rcases v with _ | ⟨c, l, d, r⟩
    · simp [rb_find_scan_prev, rb_prev_pos] at h
    obtain ⟨hnone, hsome⟩ := rb_prev_pos_spec p c l d r
    cases hprev : rb_prev_pos p (RbTree.node c l d r) with
    | none =>
      simp only [rb_find_scan_prev, hprev] at h
      cases h
    | some qw =>
      obtain ⟨q1, w1⟩ := qw
      obtain ⟨hw1, hplug1, hlist⟩ := hsome q1 w1 hprev
      simp only [rb_find_scan_prev, hprev] at h
      by_cases hcmp : rb_compare (rootD w1) x ≠ 0
      · rw [if_pos hcmp] at h
        cases h
      · rw [if_neg hcmp] at h
        by_cases hid : (rootD w1).id = x.id
        · rw [if_pos hid] at h
          obtain ⟨hq, hw⟩ : q1 = q ∧ w1 = w := by simpa using h
          refine ⟨by rw [← hq, ← hw]; exact hplug1, hw ▸ hw1, hw ▸ hid, ?_⟩
          show rootD w ∈ beforeP p ++ inorder l
          rw [← hw, ← hlist]
          simp
        · rw [if_neg hid] at h
          obtain ⟨hplug2, hw2, hid2, hmem2⟩ := ih q1 w1 q w h
          refine ⟨by rw [hplug2, hplug1], hw2, hid2, ?_⟩
          show rootD w ∈ beforeP p ++ inorder l
          rw [← hlist]
          simp only [List.mem_append] at hmem2 ⊢
          tauto

/-- The successor scan of `rb_find` finds the target when it lies after the
pivot with only comparator-equal foreign elements in between. -/
lemma rb_find_scan_next_finds (x : LydNode) :
    ∀ (B : List LydNode) (fuel : Nat) (p : RbPath) (v : RbTree)
      (C : List LydNode), v ≠ RbTree.nil → B.length + 1 ≤ fuel →
      inorder (rightT v) ++ afterP p = B ++ x :: C →
      (∀ b ∈ B, b.val = x.val ∧ b.id ≠ x.id) →
      ∃ q w, rb_find_scan_next x fuel p v = some (q, w) ∧
        plug q w = plug p v ∧ w ≠ RbTree.nil ∧ rootD w = x := by
  intro B
  induction B with
  | nil =>
    intro fuel p v C hv hfuel hpost hB
    obtain ⟨f, rfl⟩ : ∃ f, fuel = f + 1 := ⟨fuel - 1, by omega⟩
    rcases v with _ | ⟨c, l, d, r⟩
    · exact absurd rfl hv
    obtain ⟨hnone, hsome⟩ := rb_next_pos_spec p c l d r
    cases hnext : rb_next_pos p (RbTree.node c l d r) with
    | none =>
      exfalso
      have h0 : inorder r ++ afterP p = [] := hnone hnext
      have hpost2 : inorder r ++ afterP p = x :: C := hpost
      rw [h0] at hpost2
      cases hpost2
    | some qw =>
      obtain ⟨q1, w1⟩ := qw
      obtain ⟨hw1, hplug1, hlist⟩ := hsome q1 w1 hnext
      have hpost2 : inorder r ++ afterP p = x :: C := hpost
      rw [hpost2] at hlist
      obtain ⟨hx, hrest⟩ : rootD w1 = x ∧ inorder (rightT w1) ++ afterP q1 = C := by
        exact ⟨by injection hlist, by injection hlist⟩
      have hcmp : rb_compare (rootD w1) x = 0 := by
        rw [hx]
        simp [rb_compare]
      refine ⟨q1, w1, ?_, hplug1, hw1, hx⟩
      simp only [rb_find_scan_next, hnext]
      rw [if_neg (by simp [hcmp]), if_pos (by rw [hx])]
  | cons b B' ihB =>
    intro fuel p v C hv hfuel hpost hB
    obtain ⟨f, rfl⟩ : ∃ f, fuel = f + 1 := ⟨fuel - 1, by omega⟩
    rcases v with _ | ⟨c, l, d, r⟩
    · exact absurd rfl hv
    obtain ⟨hnone, hsome⟩ := rb_next_pos_spec p c l d r
    cases hnext : rb_next_pos p (RbTree.node c l d r) with
    | none =>
      exfalso
      have h0 : inorder r ++ afterP p = [] := hnone hnext
      have hpost2 : inorder r ++ afterP p = b :: (B' ++ x :: C) := hpost
      rw [h0] at hpost2
      cases hpost2
    | some qw =>
      obtain ⟨q1, w1⟩ := qw
      obtain ⟨hw1, hplug1, hlist⟩ := hsome q1 w1 hnext
      have hpost2 : inorder r ++ afterP p = b :: (B' ++ x :: C) := hpost
      rw [hpost2] at hlist
      obtain ⟨hb, hrest⟩ : rootD w1 = b ∧ inorder (rightT w1) ++ afterP q1 =
          B' ++ x :: C := ⟨by injection hlist, by injection hlist⟩
      obtain ⟨hbval, hbid⟩ := hB b (by simp)
      have hcmp : rb_compare (rootD w1) x = 0 := by
        rw [hb]
        exact rb_compare_zero.mpr hbval
      have hfuel2 : B'.length + 1 ≤ f := by
        simp only [List.length_cons] at hfuel
        omega
      obtain ⟨q2, w2, hscan, hplug2, hw2, hroot2⟩ :=
        ihB f q1 w1 C hw1 hfuel2 hrest (fun b2 hb2 => hB b2 (by simp [hb2]))
      refine ⟨q2, w2, ?_, by rw [hplug2, hplug1], hw2, hroot2⟩
      simp only [rb_find_scan_next, hnext]
      rw [if_neg (by simp [hcmp]), if_neg (by rw [hb]; exact hbid)]
      exact hscan

lemma sortedVals_infix {A M B : List LydNode} (h : SortedVals (A ++ M ++ B)) :
    SortedVals M :=
  List.Pairwise.sublist (List.IsInfix.sublist ⟨A, B, rfl⟩) h

/-- Correctness of the descent-plus-scan of `rb_find`: in a sorted tree with
distinct node addresses, the search from any valid position whose subtree
contains the target (by identity) returns the target's own position. -/
lemma rb_find_go_spec (x : LydNode) :
    ∀ (u : RbTree) (p : RbPath) (t : RbTree), plug p u = t →
      SortedVals (inorder t) → IdsNodup (inorder t) → x ∈ inorder u →
      ∃ q w, rb_find_go u x p = some (q, w) ∧ plug q w = t ∧
        w ≠ RbTree.nil ∧ rootD w = x := by
  intro u
  induction u with
  | nil => intro p t _ _ _ hmem; simp [inorder] at hmem
  | node c l d r ihl ihr =>
    intro p t hplug hsort hnodup hmem
    have hioL : inorder t =
        (beforeP p ++ inorder l) ++ d :: (inorder r ++ afterP p) := by
      rw [← hplug, inorder_plug]
      simp [inorder]
    have hmem3 : x ∈ inorder l ∨ x = d ∨ x ∈ inorder r := by
      simpa [inorder] using hmem
    have hsortu : SortedVals (inorder l ++ d :: inorder r) := by
      have h2 : SortedVals (beforeP p ++ (inorder l ++ d :: inorder r)
          ++ afterP p) := by
        rw [hioL] at hsort
        have h3 : (beforeP p ++ inorder l) ++ d :: (inorder r ++ afterP p) =
            beforeP p ++ (inorder l ++ d :: inorder r) ++ afterP p := by simp
        rw [h3] at hsort
        exact hsort
      exact sortedVals_infix h2
    rw [rb_find_go]
    by_cases h1 : rb_compare d x > 0
    · rw [if_pos h1]
      have hxv : x.val < d.val := rb_compare_pos.mp h1
      have hxl : x ∈ inorder l := by
        rcases hmem3 with h | h | h
        · exact h
        · subst h; omega
        · have := (sortedVals_middle hsortu).2.2.2.1 x h
          omega
      exact ihl (RbPath.leftOf c d r p) t hplug hsort hnodup hxl
    · rw [if_neg h1]
      by_cases h2 : rb_compare d x < 0
      · rw [if_pos h2]
        have hxv : d.val < x.val := rb_compare_neg.mp h2
        have hxr : x ∈ inorder r := by
          rcases hmem3 with h | h | h
          · have := (sortedVals_middle hsortu).2.2.1 x h
            omega
          · subst h; omega
          · exact h
        exact ihr (RbPath.rightOf c d l p) t hplug hsort hnodup hxr
      · rw [if_neg h2]
        have hdval : d.val = x.val := by
          rw [← rb_compare_zero]
          omega
        by_cases h3 : d.id = x.id
        · rw [if_pos h3]
          have hdx : d = x := by
            rcases d with ⟨di, dv⟩
            rcases x with ⟨xi, xv⟩
            simp only at h3 hdval
            rw [h3, hdval]
          exact ⟨p, RbTree.node c l d r, rfl, hplug, by simp, hdx⟩
        · rw [if_neg h3]
          rw [hplug]
          rcases hmem3 with hl | rfl | hr
          · -- target among the in-order predecessors: the backward scan hits it
            obtain ⟨A1, B1, hA1⟩ := List.append_of_mem hl
            have hpre : beforeP p ++ inorder (leftT (RbTree.node c l d r)) =
                (beforeP p ++ A1) ++ x :: B1 := by
              simp [leftT, hA1]
            have hsplit2 : inorder t = (beforeP p ++ A1) ++
                x :: (B1 ++ d :: (inorder r ++ afterP p)) := by
              rw [hioL, hA1]
              simp
            have hsplit3 : inorder t = ((beforeP p ++ A1) ++ x :: B1) ++
                d :: (inorder r ++ afterP p) := by
              rw [hioL, hA1]
              simp
            have hs2 := sortedVals_middle (hsplit2 ▸ hsort)
            have hs3 := sortedVals_middle (hsplit3 ▸ hsort)
            have hBfacts : ∀ b ∈ B1, b.val = x.val ∧ b.id ≠ x.id := by
              intro b hb
              constructor
              · have hup : b.val ≤ d.val := hs3.2.2.1 b (by simp [hb])
                have hdn : x.val ≤ b.val := hs2.2.2.2.1 b (by simp [hb])
                omega
              · have hnd := hnodup
                rw [hsplit2] at hnd
                unfold IdsNodup at hnd
                rw [List.map_append] at hnd
                simp only [List.map_cons] at hnd
                have hnm := (nodup_middle_not_mem hnd).2
                intro hbid
                exact hnm (by
                  rw [← hbid]
                  exact List.mem_map_of_mem _ (by simp [hb]))
            have hfuel : B1.length + 1 ≤ tsize t := by
              have hlen := congrArg List.length hsplit2
              rw [inorder_length] at hlen
              simp [List.length_append] at hlen
              omega
            obtain ⟨q, w, hscan, hplugw, hw, hroot⟩ :=
              rb_find_scan_prev_finds x B1 (tsize t) p (RbTree.node c l d r)
                (beforeP p ++ A1) (by simp) hfuel hpre hBfacts
            refine ⟨q, w, ?_, by rw [hplugw, hplug], hw, hroot⟩
            rw [hscan]
          · exact absurd rfl h3
          · -- target among the in-order successors: the backward scan misses,
            -- the forward scan hits
            have hxt : x ∈ inorder t := by
              rw [hioL]
              simp [hr]
            cases hsp : rb_find_scan_prev x (tsize t) p (RbTree.node c l d r) with
            | some qw =>
              exfalso
              obtain ⟨q1, w1⟩ := qw
              obtain ⟨hplug1, hw1, hid1, hmem1⟩ :=
                rb_find_scan_prev_sound x (tsize t) p (RbTree.node c l d r) q1 w1 hsp
              have hmem1b : rootD w1 ∈ beforeP p ++ inorder l := hmem1
              have hwt : rootD w1 ∈ inorder t := by
                rw [hioL]
                simp only [List.mem_append] at hmem1b ⊢
                tauto
              have hwx : rootD w1 = x := id_eq_of_mem hnodup hwt hxt hid1
              rw [hwx] at hmem1b
              have hnd := hnodup
              rw [hioL] at hnd
              unfold IdsNodup at hnd
              rw [List.map_append] at hnd
              simp only [List.map_cons] at hnd
              have hdisj := List.disjoint_of_nodup_append hnd
              exact hdisj (List.mem_map_of_mem _ hmem1b)
                (by
                  simp only [List.mem_cons]
                  right
                  exact List.mem_map_of_mem _ (by simp [hr]))
            | none =>
              obtain ⟨B2, C2, hB2⟩ := List.append_of_mem hr
              have hpost : inorder (rightT (RbTree.node c l d r)) ++ afterP p =
                  B2 ++ x :: (C2 ++ afterP p) := by
                simp [rightT, hB2]
              have hsplit2 : inorder t = ((beforeP p ++ inorder l) ++ d :: B2) ++
                  x :: (C2 ++ afterP p) := by
                rw [hioL, hB2]
                simp
              have hs2 := sortedVals_middle (hsplit2 ▸ hsort)
              have hsD := sortedVals_middle (hioL ▸ hsort)
              have hBfacts : ∀ b ∈ B2, b.val = x.val ∧ b.id ≠ x.id := by
                intro b hb
                constructor
                · have hup : b.val ≤ x.val := hs2.2.2.1 b (by simp [hb])
                  have hdn : d.val ≤ b.val := hsD.2.2.2.1 b (by
                    simp only [List.mem_append]
                    left
                    simp [hB2, hb])
                  omega
                · have hnd := hnodup
                  rw [hsplit2] at hnd
                  unfold IdsNodup at hnd
                  rw [List.map_append] at hnd
                  simp only [List.map_cons] at hnd
                  have hnm := (nodup_middle_not_mem hnd).1
                  intro hbid
                  exact hnm (by
                    rw [← hbid]
                    exact List.mem_map_of_mem _ (by simp [hb]))
              have hfuel : B2.length + 1 ≤ tsize t := by
                have hlen := congrArg List.length hsplit2
                rw [inorder_length] at hlen
                simp [List.length_append] at hlen
                omega
              obtain ⟨q, w, hscan, hplugw, hw, hroot⟩ :=
                rb_find_scan_next_finds x B2 (tsize t) p (RbTree.node c l d r)
                  (C2 ++ afterP p) (by simp) hfuel hpost hBfacts
              refine ⟨q, w, ?_, by rw [hplugw, hplug], hw, hroot⟩
              rw [hscan]

/-- `rb_find` locates the node that is pointer-identical to the target, not
one that is merely comparator-equal. -/
lemma rb_find_spec (t : RbTree) (x : LydNode)
    (hsort : SortedVals (inorder t)) (hnodup : IdsNodup (inorder t))
    (hmem : x ∈ inorder t) :
    ∃ p u, rb_find t x = some (p, u) ∧ plug p u = t ∧ u ≠ RbTree.nil ∧
      rootD u = x := by
  rcases t with _ | ⟨c, l, d, r⟩
  · simp [inorder] at hmem
  simp only [rb_find]
  by_cases hid : (rootD (RbTree.node c l d r)).id = x.id
  · rw [if_pos hid]
    have hd : rootD (RbTree.node c l d r) = x :=
      id_eq_of_mem hnodup (by simp [inorder, rootD]) hmem hid
    exact ⟨RbPath.root, RbTree.node c l d r, rfl, rfl, by simp, hd⟩
  · rw [if_neg hid]
    exact rb_find_go_spec x (RbTree.node c l d r) RbPath.root
      (RbTree.node c l d r) rfl hsort hnodup hmem

/-- `rb_remove_node` removes exactly the identity-matched element from the
in-order list. -/
lemma rb_remove_node_spec (t : RbTree) (x : LydNode)
    (hsort : SortedVals (inorder t)) (hnodup : IdsNodup (inorder t))
    (hmem : x ∈ inorder t) :
    ∃ A B, inorder t = A ++ x :: B ∧ inorder (rb_remove_node t x) = A ++ B := by
  obtain ⟨p, u, hfind, hplug, hne, hroot⟩ := rb_find_spec t x hsort hnodup hmem
  rcases u with _ | ⟨c, l, d, r⟩
  · exact absurd rfl hne
  have hdx : d = x := hroot
  refine ⟨beforeP p ++ inorder l, inorder r ++ afterP p, ?_, ?_⟩
  · rw [← hplug, inorder_plug, hdx]
    simp [inorder]
  · simp only [rb_remove_node, hfind]
    rw [inorder_remove_at]
    simp

/-- **C3.** In a sorted tree of distinct node addresses containing the target
node, `rb_find` returns exactly the index node whose datum is
pointer-identical to the target (never one that is merely comparator-equal),
and consequently removing one instance by identity (`rb_remove_node`) deletes
exactly that element from the in-order list while every remaining instance --
in particular a comparator-equal duplicate -- stays present and locatable by
a further `rb_find`. -/
theorem C3_find_identity_duplicate_removal (t : RbTree) (x : LydNode)
    (hsort : SortedVals (inorder t)) (hnodup : IdsNodup (inorder t))
    (hmem : x ∈ inorder t) :
    (∃ p u, rb_find t x = some (p, u) ∧ plug p u = t ∧ rootD u = x) ∧
    (∃ A B, inorder t = A ++ x :: B ∧ inorder (rb_remove_node t x) = A ++ B ∧
      ∀ y ∈ A ++ B, ∃ q w, rb_find (rb_remove_node t x) y = some (q, w) ∧
        plug q w = rb_remove_node t x ∧ rootD w = y) := by
  constructor
  · obtain ⟨p, u, h1, h2, _, h4⟩ := rb_find_spec t x hsort hnodup hmem
    exact ⟨p, u, h1, h2, h4⟩
  · obtain ⟨A, B, hAB, hrem⟩ := rb_remove_node_spec t x hsort hnodup hmem
    refine ⟨A, B, hAB, hrem, ?_⟩
    intro y hy
    have hsub : List.Sublist (A ++ B) (A ++ x :: B) :=
      List.Sublist.append_left (List.sublist_cons_self x B) A
    have hsort2 : SortedVals (inorder (rb_remove_node t x)) := by
      rw [hrem]
      rw [hAB] at hsort
      exact hsort.sublist hsub
    have hnodup2 : IdsNodup (inorder (rb_remove_node t x)) := by
      rw [hrem]
      rw [hAB] at hnodup
      exact List.Nodup.sublist (List.Sublist.map _ hsub) hnodup
    have hymem : y ∈ inorder (rb_remove_node t x) := by
      rw [hrem]
      exact hy
    obtain ⟨q, w, h1, h2, _, h4⟩ := rb_find_spec _ y hsort2 hnodup2 hymem
    exact ⟨q, w, h1, h2, h4⟩

theorem C3_find_identity_duplicate_removal_witness :
    (∃ p u, rb_find (RbTree.node Color.black
        (RbTree.node Color.red RbTree.nil ⟨1, 5⟩ RbTree.nil) ⟨2, 5⟩ RbTree.nil)
        ⟨1, 5⟩ = some (p, u) ∧
      plug p u = RbTree.node Color.black
        (RbTree.node Color.red RbTree.nil ⟨1, 5⟩ RbTree.nil) ⟨2, 5⟩ RbTree.nil ∧
      rootD u = ⟨1, 5⟩) ∧
    (∃ A B, inorder (RbTree.node Color.black
        (RbTree.node Color.red RbTree.nil ⟨1, 5⟩ RbTree.nil) ⟨2, 5⟩ RbTree.nil) =
        A ++ ⟨1, 5⟩ :: B ∧
      inorder (rb_remove_node (RbTree.node Color.black
        (RbTree.node Color.red RbTree.nil ⟨1, 5⟩ RbTree.nil) ⟨2, 5⟩ RbTree.nil)
        ⟨1, 5⟩) = A ++ B ∧
      ∀ y ∈ A ++ B, ∃ q w, rb_find (rb_remove_node (RbTree.node Color.black
        (RbTree.node Color.red RbTree.nil ⟨1, 5⟩ RbTree.nil) ⟨2, 5⟩ RbTree.nil)
        ⟨1, 5⟩) y = some (q, w) ∧
        plug q w = rb_remove_node (RbTree.node Color.black
          (RbTree.node Color.red RbTree.nil ⟨1, 5⟩ RbTree.nil) ⟨2, 5⟩ RbTree.nil)
          ⟨1, 5⟩ ∧
        rootD w = y) :=
  C3_find_identity_duplicate_removal
    (RbTree.node Color.black (RbTree.node Color.red RbTree.nil ⟨1, 5⟩ RbTree.nil)
      ⟨2, 5⟩ RbTree.nil) ⟨1, 5⟩ (by decide) (by decide) (by decide)

lemma insSpot_min : ∀ (t : RbTree) (x : LydNode),
    (∀ y ∈ inorder t, x.val < y.val) → (insSpot x t).1 = [] := by
  intro t
  induction t with
  | nil => intro x _; rfl
  | node c l d r ihl ihr =>
    intro x hmin
    have hd : rb_compare d x > 0 := rb_compare_pos.mpr (hmin d (by simp [inorder]))
    simp only [insSpot, if_pos hd]
    exact ihl x (fun y hy => hmin y (by simp [inorder, hy]))

/-- **C4.** The Anchor Record stays on the current leader: inserting a
strictly smaller-than-all element via `lyds_insert` makes it the new list
head (the leader the caller's reference is updated to) and moves the anchor
to it, and removing the current leader via `lyds_unlink` relocates the
anchor to the immediate next sibling while the leader's index node leaves
the tree (the remaining in-order list is exactly the rest of the run). -/
theorem C4_anchor_follows_leader (s : RunState) (x : LydNode)
    (hg : GoodState s) (hxid : x.id ∉ s.list.map LydNode.id) :
    ((∀ y ∈ s.list, x.val < y.val) →
      (lyds_insert_p s x).list = x :: s.list ∧
      (lyds_insert_p s x).list.headI = x ∧
      (lyds_insert_p s x).anchorAt = some ((lyds_insert_p s x).list.headI).id) ∧
    (2 ≤ s.list.length →
      (lyds_unlink s (some (some s.list.headI)) (some s.list.headI)).anchorAt =
        some (s.list.tail.headI).id ∧
      inorder (lyds_unlink s (some (some s.list.headI)) (some s.list.headI)).rbt =
        s.list.tail ∧
      (lyds_unlink s (some (some s.list.headI)) (some s.list.headI)).list =
        s.list) := by
  obtain ⟨hlist, hsort, hnod, hne, hanch, hrbt⟩ := hg
  constructor
  · intro hmin
    rw [lyds_insert_p_meta hanch hrbt]
    have hxid2 : x.id ∉ (inorder s.rbt).map LydNode.id := by
      rw [← hlist]; exact hxid
    have hnod2 : IdsNodup (inorder s.rbt) := by rw [← hlist]; exact hnod
    have hmin2 : ∀ y ∈ inorder s.rbt, x.val < y.val := by
      rw [← hlist]; exact hmin
    have hsp1 : (insSpot x s.rbt).1 = [] := insSpot_min s.rbt x hmin2
    have hlist2 : inorder (rb_insert_node s.rbt x) = x :: s.list := by
      rw [inorder_insert, hsp1, hlist, ← insSpot_append x s.rbt, hsp1]
      simp
    rw [show s.list = inorder s.rbt from hlist,
      lyds_link_data_node_spec s.anchorAt hnod2 hxid2, if_pos hsp1]
    rw [← hlist]
    refine ⟨hlist2, ?_, ?_⟩
    · simp [hlist2]
    · simp [hlist2]
  · intro hlen
    have hcond : ¬(s.anchorAt ≠ some (s.list.headI).id ∨ s.list.length = 1) := by
      rintro (h | h)
      · exact h hanch
      · omega
    simp only [lyds_unlink, lyds_unlink_core, if_neg hcond, if_pos rfl]
    refine ⟨rfl, ?_, rfl⟩
    have hmem : s.list.headI ∈ inorder s.rbt := by
      rw [← hlist]
      rcases hl0 : s.list with _ | ⟨h0, t0⟩
      · exact absurd hl0 hne
      · simp
    have hsort2 : SortedVals (inorder s.rbt) := by rw [← hlist]; exact hsort
    have hnod2 : IdsNodup (inorder s.rbt) := by rw [← hlist]; exact hnod
    obtain ⟨A, B, hAB, hrem⟩ :=
      rb_remove_node_spec s.rbt s.list.headI hsort2 hnod2 hmem
    have hAB2 : A ++ s.list.headI :: B = [] ++ s.list.headI :: s.list.tail := by
      rw [← hAB, ← hlist]
      rcases hl0 : s.list with _ | ⟨h0, t0⟩
      · exact absurd hl0 hne
      · simp
    have hxA : (s.list.headI).id ∉ A.map LydNode.id := by
      have hnd := hnod2
      rw [hAB] at hnd
      unfold IdsNodup at hnd
      rw [List.map_append, List.map_cons] at hnd
      exact (nodup_middle_not_mem hnd).1
    obtain ⟨hA, hB⟩ := unique_split hAB2 hxA (by simp)
    show inorder (rb_remove_node s.rbt s.list.headI) = s.list.tail
    rw [hrem, hA, hB]
    simp

theorem C4_anchor_follows_leader_witness :
    ((lyds_insert_p ⟨[⟨1, 5⟩, ⟨2, 7⟩], some 1, RbTree.node Color.black RbTree.nil
        ⟨1, 5⟩ (RbTree.node Color.red RbTree.nil ⟨2, 7⟩ RbTree.nil)⟩ ⟨3, 1⟩).list =
        ⟨3, 1⟩ :: [⟨1, 5⟩, ⟨2, 7⟩] ∧
      (lyds_insert_p ⟨[⟨1, 5⟩, ⟨2, 7⟩], some 1, RbTree.node Color.black RbTree.nil
        ⟨1, 5⟩ (RbTree.node Color.red RbTree.nil ⟨2, 7⟩ RbTree.nil)⟩ ⟨3, 1⟩).list.headI =
        ⟨3, 1⟩ ∧
      (lyds_insert_p ⟨[⟨1, 5⟩, ⟨2, 7⟩], some 1, RbTree.node Color.black RbTree.nil
        ⟨1, 5⟩ (RbTree.node Color.red RbTree.nil ⟨2, 7⟩ RbTree.nil)⟩ ⟨3, 1⟩).anchorAt =
        some (((lyds_insert_p ⟨[⟨1, 5⟩, ⟨2, 7⟩], some 1, RbTree.node Color.black
          RbTree.nil ⟨1, 5⟩ (RbTree.node Color.red RbTree.nil ⟨2, 7⟩ RbTree.nil)⟩
          ⟨3, 1⟩).list.headI).id)) ∧
    ((lyds_unlink ⟨[⟨1, 5⟩, ⟨2, 7⟩], some 1, RbTree.node Color.black RbTree.nil
        ⟨1, 5⟩ (RbTree.node Color.red RbTree.nil ⟨2, 7⟩ RbTree.nil)⟩
        (some (some ([⟨1, 5⟩, ⟨2, 7⟩] : List LydNode).headI))
        (some ([⟨1, 5⟩, ⟨2, 7⟩] : List LydNode).headI)).anchorAt =
        some (([⟨1, 5⟩, ⟨2, 7⟩] : List LydNode).tail.headI).id ∧
      inorder (lyds_unlink ⟨[⟨1, 5⟩, ⟨2, 7⟩], some 1, RbTree.node Color.black
        RbTree.nil ⟨1, 5⟩ (RbTree.node Color.red RbTree.nil ⟨2, 7⟩ RbTree.nil)⟩
        (some (some ([⟨1, 5⟩, ⟨2, 7⟩] : List LydNode).headI))
        (some ([⟨1, 5⟩, ⟨2, 7⟩] : List LydNode).headI)).rbt =
        ([⟨1, 5⟩, ⟨2, 7⟩] : List LydNode).tail ∧
      (lyds_unlink ⟨[⟨1, 5⟩, ⟨2, 7⟩], some 1, RbTree.node Color.black RbTree.nil
        ⟨1, 5⟩ (RbTree.node Color.red RbTree.nil ⟨2, 7⟩ RbTree.nil)⟩
        (some (some ([⟨1, 5⟩, ⟨2, 7⟩] : List LydNode).headI))
        (some ([⟨1, 5⟩, ⟨2, 7⟩] : List LydNode).headI)).list =
        [⟨1, 5⟩, ⟨2, 7⟩]) :=
  ⟨(C4_anchor_follows_leader ⟨[⟨1, 5⟩, ⟨2, 7⟩], some 1, RbTree.node Color.black
      RbTree.nil ⟨1, 5⟩ (RbTree.node Color.red RbTree.nil ⟨2, 7⟩ RbTree.nil)⟩ ⟨3, 1⟩
      ⟨rfl, by decide, by decide, by decide, rfl, by decide⟩ (by decide)).1
    (by decide),
   (C4_anchor_follows_leader ⟨[⟨1, 5⟩, ⟨2, 7⟩], some 1, RbTree.node Color.black
      RbTree.nil ⟨1, 5⟩ (RbTree.node Color.red RbTree.nil ⟨2, 7⟩ RbTree.nil)⟩ ⟨3, 1⟩
      ⟨rfl, by decide, by decide, by decide, rfl, by decide⟩ (by decide)).2
    (by decide)⟩

lemma lyds_build_loop_err (env : AllocEnv) : ∀ (rest : List LydNode) (cnt : Nat)
    (rbt : RbTree) {cnt2 : Nat} {e : LYERR},
    lyds_build_loop env cnt rest rbt = (cnt2, LYRes.err e) → e = LYERR.EMEM := by
  intro rest
  induction rest with
  | nil => intro cnt rbt cnt2 e h; simp [lyds_build_loop] at h
  | cons y ys ih =>
    intro cnt rbt cnt2 e h
    simp only [lyds_build_loop, lyds_create_node] at h
    by_cases ha : env.allocOk cnt = true
    · simp only [ha, if_true] at h
      exact ih _ _ h
    · simp only [ha, if_false] at h
      cases h
      rfl

lemma lyds_act_err (env : AllocEnv) (cnt : Nat) (hm : Bool) (leader : LydNode)
    (rest : List LydNode) {cnt2 : Nat} {e : LYERR}
    (h : lyds_additionally_create_rb_tree env cnt hm leader rest =
      (cnt2, LYRes.err e)) : e = LYERR.EMEM := by
  simp only [lyds_additionally_create_rb_tree, lyds_create_node] at h
  by_cases ha : env.allocOk cnt = true
  · simp only [ha, if_true] at h
    cases hb : lyds_build_loop env (cnt + 1) rest
        (RbTree.node Color.black RbTree.nil leader RbTree.nil) with
    | mk cnt3 res =>
      rw [hb] at h
      cases res with
      | ok rbt => cases hm <;> simp at h
      | err e2 =>
        have he2 : e2 = LYERR.EMEM := lyds_build_loop_err env rest (cnt + 1) _ hb
        cases h
        exact he2
      | crash => simp at h
  · simp only [ha, if_false] at h
    cases h
    rfl

lemma lyds_build_loop_ok (env : AllocEnv) (hall : ∀ n, env.allocOk n = true) :
    ∀ (rest : List LydNode) (cnt : Nat) (rbt : RbTree),
    ∃ cnt2 rbt2, lyds_build_loop env cnt rest rbt = (cnt2, LYRes.ok rbt2) := by
  intro rest
  induction rest with
  | nil => intro cnt rbt; exact ⟨cnt, rbt, rfl⟩
  | cons y ys ih =>
    intro cnt rbt
    simp only [lyds_build_loop, lyds_create_node, hall cnt, if_true]
    exact ih _ _

lemma lyds_build_loop_ok_val (env : AllocEnv) : ∀ (rest : List LydNode) (cnt : Nat)
    (rbt : RbTree) {cnt2 : Nat} {rbt2 : RbTree},
    lyds_build_loop env cnt rest rbt = (cnt2, LYRes.ok rbt2) →
    rbt2 = rest.foldl rb_insert_node rbt := by
  intro rest
  induction rest with
  | nil =>
    intro cnt rbt cnt2 rbt2 h
    cases h
    rfl
  | cons y ys ih =>
    intro cnt rbt cnt2 rbt2 h
    simp only [lyds_build_loop, lyds_create_node] at h
    by_cases ha : env.allocOk cnt = true
    · simp only [ha, if_true] at h
      exact ih _ _ h
    · simp only [ha, if_false] at h
      cases h

/-- On success the lazy build returns exactly the tree of all existing run
members in list order, the leader first. -/
lemma lyds_act_ok_val (env : AllocEnv) (cnt : Nat) (hm : Bool) (leader : LydNode)
    (rest : List LydNode) {cnt2 : Nat} {rbt1 : RbTree}
    (h : lyds_additionally_create_rb_tree env cnt hm leader rest =
      (cnt2, LYRes.ok rbt1)) : rbt1 = lyds_build leader rest := by
  simp only [lyds_additionally_create_rb_tree, lyds_create_node] at h
  by_cases ha : env.allocOk cnt = true
  · simp only [ha, if_true] at h
    cases hb : lyds_build_loop env (cnt + 1) rest
        (RbTree.node Color.black RbTree.nil leader RbTree.nil) with
    | mk cnt3 res =>
      rw [hb] at h
      cases res with
      | ok rbt2 =>
        cases hm
        · simp at h
        · simp only [if_true] at h
          cases h
          exact lyds_build_loop_ok_val env rest (cnt + 1) _ hb
      | err e2 => simp at h
      | crash => simp at h
  · simp only [ha, if_false] at h
    cases h

/-- Without a valid metadata pointer the lazy build never returns success:
its final `RBT_SET` dereferences NULL first. -/
lemma lyds_act_false_no_ok (env : AllocEnv) (cnt : Nat) (leader : LydNode)
    (rest : List LydNode) {cnt2 : Nat} {rbt1 : RbTree}
    (h : lyds_additionally_create_rb_tree env cnt false leader rest =
      (cnt2, LYRes.ok rbt1)) : False := by
  simp only [lyds_additionally_create_rb_tree, lyds_create_node] at h
  by_cases ha : env.allocOk cnt = true
  · simp only [ha, if_true] at h
    cases hb : lyds_build_loop env (cnt + 1) rest
        (RbTree.node Color.black RbTree.nil leader RbTree.nil) with
    | mk cnt3 res =>
      rw [hb] at h
      cases res with
      | ok rbt2 => simp at h
      | err e2 => simp at h
      | crash => simp at h
  · simp only [ha, if_false] at h
    cases h

lemma lyds_insert_err_cases (env : AllocEnv) (cnt : Nat) (s : RunState) (x : LydNode)
    {cnt2 : Nat} {e : LYERR} {s2 : RunState}
    (h : lyds_insert env cnt s x = (cnt2, RunRes.err e s2)) :
    e = LYERR.EMEM ∧ (s2 = s ∨
      (s.rbt = RbTree.nil ∧
        s2 = { s with rbt := lyds_build s.list.headI s.list.tail }) ∨
      (¬ s.anchorAt = some (s.list.headI).id ∧
        (s2 = { s with anchorAt := some (s.list.headI).id, rbt := RbTree.nil } ∨
         s2 = { s with anchorAt := some (s.list.headI).id, rbt := lyds_build s.list.headI s.list.tail }))) := by
  simp only [lyds_insert] at h
  by_cases hm : s.anchorAt = some s.list.headI.id
  · simp only [if_pos hm] at h
    by_cases hnil : s.rbt = RbTree.nil
    · simp only [if_pos hnil] at h
      split at h
      · rename_i cnt3 e2 heq
        cases h
        exact ⟨lyds_act_err env cnt true _ _ heq, Or.inl rfl⟩
      · cases h
      · rename_i cnt3 rbt1 heq
        have hb := lyds_act_ok_val env cnt true _ _ heq
        subst hb
        simp only [lyds_create_node] at h
        by_cases ha : env.allocOk cnt3 = true
        · simp only [ha, if_true] at h
          cases h
        · simp only [ha, if_false] at h
          cases h
          exact ⟨rfl, Or.inr (Or.inl ⟨hnil, rfl⟩)⟩
    · simp only [if_neg hnil, lyds_create_node] at h
      by_cases ha : env.allocOk cnt = true
      · simp only [ha, if_true] at h
        cases h
      · simp only [ha, if_false] at h
        cases h
        exact ⟨rfl, Or.inl rfl⟩
  · simp only [if_neg hm, lyds_create_metadata, if_neg hm] at h
    by_cases hyang : env.yangPresent = false
    · simp only [hyang, if_true] at h
      split at h
      · rename_i cnt3 e2 heq
        cases h
        exact ⟨lyds_act_err env cnt false _ _ heq, Or.inl rfl⟩
      · cases h
      · rename_i cnt3 rbt1 heq
        exact (lyds_act_false_no_ok env cnt _ _ heq).elim
    · simp only [hyang, if_false] at h
      by_cases ha0 : env.allocOk cnt = true
      · simp only [ha0, if_true] at h
        split at h
        · rename_i cnt3 e2 heq
          cases h
          exact ⟨lyds_act_err env (cnt + 1) true _ _ heq,
            Or.inr (Or.inr ⟨hm, Or.inl rfl⟩)⟩
        · cases h
        · rename_i cnt3 rbt1 heq
          have hb := lyds_act_ok_val env (cnt + 1) true _ _ heq
          subst hb
          simp only [lyds_create_node] at h
          by_cases ha : env.allocOk cnt3 = true
          · simp only [ha, if_true] at h
            cases h
          · simp only [ha, if_false] at h
            cases h
            exact ⟨rfl, Or.inr (Or.inr ⟨hm, Or.inr rfl⟩)⟩
      · simp only [ha0, if_false] at h
        split at h
        · rename_i cnt3 e2 heq
          cases h
          exact ⟨lyds_act_err env (cnt + 1) false _ _ heq, Or.inl rfl⟩
        · cases h
        · rename_i cnt3 rbt1 heq
          exact (lyds_act_false_no_ok env (cnt + 1) _ _ heq).elim

/-- **C5 (amended).** `lyds_insert` fails only with the allocation error
`LY_EMEM`, and a failing execution never modifies the linked list and never
inserts the new node; but the tree is *not* always left unmodified: when the
run's tree had not been materialized yet, a successful lazy build persists
the tree of the existing members into the Anchor Record
(`RBT_SET`, `tree_data_sorted.c:950`) before the allocation of the new
node's cell can fail, so the `LY_EMEM` return may carry that freshly built
tree.  The coherence hypothesis states that the tree is reachable only
through the Anchor Record on the leader, as in the C data structure. -/
theorem C5_insert_fails_only_emem (env : AllocEnv) (cnt : Nat)
    (s : RunState) (x : LydNode)
    (hcoh : s.anchorAt = some (s.list.headI).id ∨ s.rbt = RbTree.nil) :
    ∀ cnt2 e s2, lyds_insert env cnt s x = (cnt2, RunRes.err e s2) →
      e = LYERR.EMEM ∧ s2.list = s.list ∧
        (s2.rbt = s.rbt ∨
          (s.rbt = RbTree.nil ∧
            s2.rbt = lyds_build s.list.headI s.list.tail)) := by
  intro cnt2 e s2 h
  obtain ⟨he, hs⟩ := lyds_insert_err_cases env cnt s x h
  refine ⟨he, ?_, ?_⟩
  · rcases hs with rfl | ⟨hnil, rfl⟩ | ⟨hm2, rfl | rfl⟩ <;> rfl
  · rcases hs with rfl | ⟨hnil, rfl⟩ | ⟨hm2, rfl | rfl⟩
    · exact Or.inl rfl
    · exact Or.inr ⟨hnil, rfl⟩
    · rcases hcoh with hc | hc
      · exact absurd hc hm2
      · exact Or.inl hc.symm
    · rcases hcoh with hc | hc
      · exact absurd hc hm2
      · exact Or.inr ⟨hc, rfl⟩

theorem C5_insert_fails_only_emem_witness :
    LYERR.EMEM = LYERR.EMEM ∧
    (⟨[⟨1, 5⟩], some 1, RbTree.node Color.black RbTree.nil ⟨1, 5⟩
      RbTree.nil⟩ : RunState).list = (⟨[⟨1, 5⟩], some 1, RbTree.nil⟩ :
      RunState).list ∧
    ((⟨[⟨1, 5⟩], some 1, RbTree.node Color.black RbTree.nil ⟨1, 5⟩
        RbTree.nil⟩ : RunState).rbt = (⟨[⟨1, 5⟩], some 1, RbTree.nil⟩ :
        RunState).rbt ∨
      ((⟨[⟨1, 5⟩], some 1, RbTree.nil⟩ : RunState).rbt = RbTree.nil ∧
        (⟨[⟨1, 5⟩], some 1, RbTree.node Color.black RbTree.nil ⟨1, 5⟩
          RbTree.nil⟩ : RunState).rbt =
          lyds_build (⟨[⟨1, 5⟩], some 1, RbTree.nil⟩ :
            RunState).list.headI (⟨[⟨1, 5⟩], some 1, RbTree.nil⟩ :
            RunState).list.tail)) :=
  C5_insert_fails_only_emem ⟨fun n => n == 0, true⟩ 0
    ⟨[⟨1, 5⟩], some 1, RbTree.nil⟩ ⟨2, 3⟩ (Or.inr rfl) 2 LYERR.EMEM
    ⟨[⟨1, 5⟩], some 1, RbTree.node Color.black RbTree.nil ⟨1, 5⟩ RbTree.nil⟩
    (by decide)

/-- Counterexample to the claim's "on every failing execution the existing
tree ... left completely unmodified": with the Anchor Record present but the
tree not yet materialized, the lazy build succeeds and is persisted into the
record, then the allocation for the new node's cell fails; the `LY_EMEM`
return carries the materialized one-node tree, different from the caller's
empty one. -/
theorem C5_partial_effect_counterexample :
    lyds_insert ⟨fun n => n == 0, true⟩ 0 ⟨[⟨1, 5⟩], some 1, RbTree.nil⟩
      ⟨2, 3⟩ = (2, RunRes.err LYERR.EMEM ⟨[⟨1, 5⟩], some 1,
        RbTree.node Color.black RbTree.nil ⟨1, 5⟩ RbTree.nil⟩) ∧
    (⟨[⟨1, 5⟩], some 1, RbTree.node Color.black RbTree.nil ⟨1, 5⟩
      RbTree.nil⟩ : RunState).rbt ≠
      (⟨[⟨1, 5⟩], some 1, RbTree.nil⟩ : RunState).rbt := by
  refine ⟨by decide, by decide⟩

/-- **C6.** When the Anchor Record must first be created and the `yang`
extension module is missing, `lyds_create_metadata`'s `LY_EINT` is *not*
surfaced by `lyds_insert`: the call site at `tree_data_sorted.c:1038` drops
the return value (there is no `LY_CHECK_RET`), so the execution goes on to
dereference the NULL metadata pointer (`RBT_SET`) and crashes instead of
returning `LY_EINT`.  This refutes the claim that the error reaches the
caller. -/
theorem C6_missing_yang_crash_not_surfaced (env : AllocEnv) (cnt : Nat)
    (s : RunState) (x : LydNode)
    (hm : ¬ s.anchorAt = some (s.list.headI).id)
    (hyang : env.yangPresent = false)
    (hall : ∀ n, env.allocOk n = true) :
    (lyds_insert env cnt s x).2 = RunRes.crash ∧
    ∀ cnt2 s2, lyds_insert env cnt s x ≠ (cnt2, RunRes.err LYERR.EINT s2) := by
  have hcrash : (lyds_insert env cnt s x).2 = RunRes.crash := by
    simp only [lyds_insert, if_neg hm, lyds_create_metadata, hyang, if_true]
    obtain ⟨c2, rbt2, hb⟩ := lyds_build_loop_ok env hall s.list.tail (cnt + 1)
      (RbTree.node Color.black RbTree.nil s.list.headI RbTree.nil)
    simp only [lyds_additionally_create_rb_tree, lyds_create_node, hall cnt,
      if_true, hb]
    simp
  refine ⟨hcrash, ?_⟩
  intro cnt3 s3 hcontra
  rw [hcontra] at hcrash
  simp at hcrash

theorem C6_missing_yang_crash_not_surfaced_witness :
    (lyds_insert ⟨fun _ => true, false⟩ 0 ⟨[⟨1, 5⟩], none, RbTree.nil⟩ ⟨2, 3⟩).2 =
      RunRes.crash :=
  (C6_missing_yang_crash_not_surfaced ⟨fun _ => true, false⟩ 0
    ⟨[⟨1, 5⟩], none, RbTree.nil⟩ ⟨2, 3⟩ (by simp) rfl (fun _ => rfl)).1
